import Mathlib

/-!
The JSON document builder `formats::json`: validation and classification.

A shallow embedding of `core/src/formats/json/serialize.cpp` and
`core/src/formats/json/exttypes.hpp`.

* A rapidjson tree (`impl::Value`) is the inductive type `Value`.  A
  `std::string` / `utils::string_view` is a `String`: two of them are equal
  exactly when they have the same length and the same content.
* A `const impl::Value*` is the node it points to; the null pointer of the
  special empty frame is `none`.
* The `std::vector<TreeIterFrame>` of the walker is a `List` written from
  `back()` towards the front: `stack.back()` is the head, `emplace_back`
  conses and `pop_back` drops the head.
* `int` fields are `Int`; the conversion of a rapidjson `SizeType`
  (unsigned 32 bit) to `int` is `intOfSizeType`.
* A call either returns, throws, or leaves defined behaviour (a failed
  `UASSERT`, `back()` of an empty vector, an index past the end):
  `Outcome`.
* The rapidjson parser, its error table and its writer are collaborators
  outside the repository: they are the fields of `Rapidjson`.
-/

namespace formats.json

/-! ## Data model -/

/-- The payload of a rapidjson number node: an integer (rapidjson keeps
every integer of the signed or unsigned 64 bit range exactly) or a double,
kept as its IEEE 754 bit pattern. -/
inductive Number where
  | integer (i : Int)
  | real (bits : Nat)
deriving DecidableEq, Repr

/-- A node of a rapidjson tree, `impl::Value`.  `bool b` stands for the kinds
`kTrueType` and `kFalseType`; an object is the sequence of its members
(name, value) in document order, an array the sequence of its elements. -/
inductive Value where
  | null
  | bool (b : Bool)
  | object (members : List (String × Value))
  | array (elems : List Value)
  | string (s : String)
  | number (n : Number)

namespace Value

/-- The method `Value::IsObject()`. -/
def IsObject : Value → Bool
  | .object _ => true
  | _ => false

/-- The method `Value::IsArray()`. -/
def IsArray : Value → Bool
  | .array _ => true
  | _ => false

/-- The members `MemberBegin()` points to (none unless the node is an
object). -/
def members : Value → List (String × Value)
  | .object ms => ms
  | _ => []

/-- The elements `Begin()` points to (none unless the node is an array). -/
def elems : Value → List Value
  | .array es => es
  | _ => []

/-- The method `Value::MemberCount()`. -/
def MemberCount (v : Value) : Nat := v.members.length

/-- The method `Value::Size()`. -/
def Size (v : Value) : Nat := v.elems.length

/-- The child nodes of a node, in index order: the elements of an array, the
member values of an object, nothing for a scalar. -/
def children : Value → List Value
  | .object ms => ms.map Prod.snd
  | .array es => es
  | _ => []

mutual
/-- Number of nodes of the tree rooted at a node, the node included. -/
def nodeCount : Value → Nat
  | .object ms => 1 + nodeCountMembers ms
  | .array es => 1 + nodeCountElems es
  | _ => 1
/-- Number of nodes below the member values of a member list. -/
def nodeCountMembers : List (String × Value) → Nat
  | [] => 0
  | m :: ms => nodeCount m.2 + nodeCountMembers ms
/-- Number of nodes below the elements of an element list. -/
def nodeCountElems : List Value → Nat
  | [] => 0
  | e :: es => nodeCount e + nodeCountElems es
end

mutual
/-- The nodes of a tree in pre-order, left to right: a node comes before its
descendants, children in index order. -/
def preorder : Value → List Value
  | .object ms => .object ms :: preorderMembers ms
  | .array es => .array es :: preorderElems es
  | v => [v]
/-- Pre-order listing of the trees below a member list. -/
def preorderMembers : List (String × Value) → List Value
  | [] => []
  | m :: ms => preorder m.2 ++ preorderMembers ms
/-- Pre-order listing of the trees below an element list. -/
def preorderElems : List Value → List Value
  | [] => []
  | e :: es => preorder e ++ preorderElems es
end

mutual
/-- Every array and object of the tree has fewer than `2 ^ 31` children, so
that each count fits the `int` it is stored in. -/
def FitsInt : Value → Bool
  | .object ms => decide (ms.length < 2 ^ 31) && FitsIntMembers ms
  | .array es => decide (es.length < 2 ^ 31) && FitsIntElems es
  | _ => true
/-- The bound of `FitsInt` for every member value of a member list. -/
def FitsIntMembers : List (String × Value) → Bool
  | [] => true
  | m :: ms => FitsInt m.2 && FitsIntMembers ms
/-- The bound of `FitsInt` for every element of an element list. -/
def FitsIntElems : List Value → Bool
  | [] => true
  | e :: es => FitsInt e && FitsIntElems es
end

end Value

/-- Conversion of a `SizeType` (unsigned 32 bit) to `int` (two's complement,
32 bit), as in `end_ = root->Size()` and `const int count = ...`. -/
def intOfSizeType (n : Nat) : Int :=
  if n % 2 ^ 32 < 2 ^ 31 then ((n % 2 ^ 32 : Nat) : Int)
  else ((n % 2 ^ 32 : Nat) : Int) - 2 ^ 32

/-- The exceptions of `formats/json/exception.hpp` thrown by this file. -/
inductive Exception where
  | ParseException (msg : String)
  | BadStreamException
deriving DecidableEq, Repr

/-- How a call ends: it returns a result, throws, or runs into undefined
behaviour (failed `UASSERT`, `back()` of an empty vector, an index outside
the container). -/
inductive Outcome (α : Type) where
  | returned (a : α)
  | threw (e : Exception)
  | undefined

/-! ## TreeIterFrame -/

/-- The class `TreeIterFrame`: artificial "stack frame" for the tree
iterator. -/
structure TreeIterFrame where
  /-- pointer to root element (`none` is `nullptr`) -/
  root_ : Option Value
  /-- index of currently "selected" element -/
  current_ : Int
  /-- cached Size of corresponding root -/
  end_ : Int

namespace TreeIterFrame

/-- The default constructor, the special "empty" frame:
`root_{nullptr}, current_{0}, end_{0}`. -/
def empty : TreeIterFrame := { root_ := none, current_ := 0, end_ := 0 }

/-- The constructor `TreeIterFrame(const impl::Value* root)`. -/
def ofValue (root : Value) : TreeIterFrame :=
  { root_ := some root
    current_ := 0
    end_ :=
      if root.IsArray then intOfSizeType root.Size
      else if root.IsObject then intOfSizeType root.MemberCount
      else 1 }

/-- The method `TreeIterFrame::CurrentValue()`.  It is `none` when `UASSERT(current_ < end_)`
fails, when `root_` is null, or when the index is outside the container. -/
def CurrentValue (f : TreeIterFrame) : Option Value :=
  if f.current_ < f.end_ then
    match f.root_ with
    | none => none
    | some root =>
      if root.IsArray then
        if f.current_ < 0 then none else root.elems[f.current_.toNat]?
      else if root.IsObject then
        if f.current_ < 0 then none
        else (root.members[f.current_.toNat]?).map Prod.snd
      else some root
  else none

/-- The method `TreeIterFrame::Advance()`: `current_++` (the walker never advances a
frame whose `current_` is `INT_MAX`, so the increment does not overflow). -/
def Advance (f : TreeIterFrame) : TreeIterFrame :=
  { f with current_ := f.current_ + 1 }

/-- The method `TreeIterFrame::HasMoreElements()`. -/
def HasMoreElements (f : TreeIterFrame) : Bool := decide (f.current_ < f.end_)

end TreeIterFrame

/-! ## CheckKeyUniqueness -/

/-- The function `AsStringView`: the name as `{GetString(), GetStringLength()}`. -/
def AsStringView (name : String) : String := name

/-- The inner loop `for (int j = 0; j < i; j++)` of the key comparison:
whether `i_key == j_key` for some `j` below `i`. -/
def keyEqualsEarlier (begin : List (String × Value)) (i : Nat) : Bool :=
  (List.range i).any fun j =>
    match begin[i]?, begin[j]? with
    | some mi, some mj => AsStringView mi.1 == AsStringView mj.1
    | _, _ => false

/-- The key comparison of an object node, lines 81 to 91: the loop
`for (int i = 1; i < count; i++)` around the inner loop.  The result is the
`i_key` of the `throw`, or `none` when both loops run to their end. -/
def findDuplicateKey (value : Value) : Option String :=
  let count : Int := intOfSizeType value.MemberCount
  let begin := value.members
  (List.range' 1 (count - 1).toNat).findSome? fun i =>
    if keyEqualsEarlier begin i then (begin[i]?).map fun m => AsStringView m.1
    else none

/-- What one pass through the body of `for (;;)` leads to: the next pass,
with the stack and `value` it starts from, or the end of the call. -/
inductive Iteration where
  | next (stack : List TreeIterFrame) (value : Value)
  | done (r : Outcome Unit)

/-- What the loop `while (!stack.back().HasMoreElements())` leads to. -/
inductive Unwound where
  /-- the loop ended with this stack, whose back has more elements -/
  | resume (stack : List TreeIterFrame)
  /-- the statement `if (stack.empty()) return;` was reached with an empty stack -/
  | finished
  /-- the call `stack.back()` met an empty vector -/
  | undefined

/-- The unwind loop, lines 99 to 102:
`while (!stack.back().HasMoreElements()) { stack.pop_back(); if (stack.empty()) return; }`. -/
def unwind : List TreeIterFrame → Unwound
  | [] => .undefined
  | top :: rest =>
    if top.HasMoreElements then .resume (top :: rest)
    else if rest.isEmpty then .finished
    else unwind rest

/-- Line 105, `value = stack.back().CurrentValue();`, and the jump back to
the top of the loop. -/
def selectCurrent (stack : List TreeIterFrame) : Iteration :=
  match stack with
  | [] => .done .undefined
  | top :: _ =>
    match top.CurrentValue with
    | some value => .next stack value
    | none => .done .undefined

/-- The `else` branch of line 98 followed by line 105: unwind, then select
the current value of the frame the unwinding stopped at. -/
def unwindAndSelect (stack : List TreeIterFrame) : Iteration :=
  match unwind stack with
  | .resume stack' => selectCurrent stack'
  | .finished => .done (.returned ())
  | .undefined => .done .undefined

/-- One pass through the body of the loop `for (;;)`, lines 78 to 105. -/
def loopBody (stack : List TreeIterFrame) (value : Value) : Iteration :=
  match stack with
  | [] => .done .undefined
  | top :: rest =>
    let stack := top.Advance :: rest
    match (if value.IsObject then findDuplicateKey value else none) with
    | some i_key => .done (.threw (.ParseException ("Duplicate key: " ++ i_key)))
    | none =>
      if (value.IsObject && decide (0 < value.MemberCount)) ||
          (value.IsArray && decide (0 < value.Size)) then
        selectCurrent (TreeIterFrame.ofValue value :: stack)
      else unwindAndSelect stack

/-- The loop `for (;;)` run for at most `fuel` passes; `none` when the call
has not ended by then. -/
def walk : Nat → List TreeIterFrame → Value → Option (Outcome Unit)
  | 0, _, _ => none
  | fuel + 1, stack, value =>
    match loopBody stack value with
    | .next stack' value' => walk fuel stack' value'
    | .done r => some r

/-- The function `CheckKeyUniqueness` with a bound on the number of passes through the
loop: the stack starts as the one fake "top" frame, `value` as `root`. -/
def CheckKeyUniquenessFuel (fuel : Nat) (root : Value) : Option (Outcome Unit) :=
  walk fuel [TreeIterFrame.empty] root

/-- The function `CheckKeyUniqueness(root)`.  The loop is given one pass for every node of
the tree, which is enough for the call to end (`walk_enough_fuel`). -/
def CheckKeyUniqueness (root : Value) : Outcome Unit :=
  match CheckKeyUniquenessFuel root.nodeCount root with
  | some r => r
  | none => .undefined

/-! ## The walk, node by node -/

/-- The key comparison of lines 79 to 92 at one node: the key of the `throw`
when the node is an object with a repeated name. -/
def nodeDuplicate (value : Value) : Option String :=
  if value.IsObject then findDuplicateKey value else none

/-- The first key the comparison finds along a list of nodes. -/
def scanNodes (nodes : List Value) : Option String :=
  nodes.findSome? nodeDuplicate

/-- The exception of line 89. -/
def duplicateKeyError (key : String) : Exception :=
  .ParseException ("Duplicate key: " ++ key)

/-- The rest of the loop after the unwind step on `stack`, for at most
`fuel` further passes. -/
def continueFrom (fuel : Nat) (stack : List TreeIterFrame) : Option (Outcome Unit) :=
  match unwindAndSelect stack with
  | .next stack' value' => walk fuel stack' value'
  | .done r => some r

/-- The end of the call when a key was found, the continuation otherwise. -/
def throwOr (found : Option String) (cont : Option (Outcome Unit)) :
    Option (Outcome Unit) :=
  match found with
  | some key => some (.threw (duplicateKeyError key))
  | none => cont

/-- The frame of a node `parent` whose first `i` children have been
selected. -/
def childFrame (parent : Value) (i : Nat) : TreeIterFrame :=
  { root_ := some parent, current_ := (i : Int), end_ := (parent.children.length : Int) }

/-- The names of the members of a node, in member order (none unless the
node is an object). -/
def Value.memberNames (v : Value) : List String := v.members.map Prod.fst

/-- The name of member `i` equals the name of an earlier member. -/
def RepeatsEarlierName (ms : List (String × Value)) (i : Nat) : Prop :=
  ∃ j a b, j < i ∧ ms[j]? = some a ∧ ms[i]? = some b ∧ b.1 = a.1

/-- Some object node of the tree, at some depth, has two members whose names
are equal. -/
def HasDuplicateKey (root : Value) : Prop :=
  ∃ (ms : List (String × Value)) (i j : Nat) (a b : String × Value),
    Value.object ms ∈ root.preorder ∧ i < j ∧ ms[i]? = some a ∧ ms[j]? = some b ∧
      a.1 = b.1

/-- Some object node of the tree, at some depth, has two members named
`k`. -/
def HasTwoMembersNamed (root : Value) (k : String) : Prop :=
  ∃ (ms : List (String × Value)) (i j : Nat) (a b : String × Value),
    Value.object ms ∈ root.preorder ∧ i < j ∧ ms[i]? = some a ∧ ms[j]? = some b ∧
      a.1 = k ∧ b.1 = k

/-- The first duplicate in the traversal order is `key`: the pre-order listing
of the tree splits into nodes without equal member names, an object `O` and
the rest, and `key` is the name of the lowest-index member of `O` whose name
equals the name of an earlier member of `O`. -/
def FirstDuplicate (root : Value) (key : String) : Prop :=
  ∃ (pre : List Value) (ms : List (String × Value)) (post : List Value) (i : Nat)
    (m : String × Value),
    root.preorder = pre ++ Value.object ms :: post ∧
    (∀ v ∈ pre, v.memberNames.Nodup) ∧
    RepeatsEarlierName ms i ∧ (∀ i', i' < i → ¬ RepeatsEarlierName ms i') ∧
    ms[i]? = some m ∧ m.1 = key

/-- Every object node of the tree, at every depth, has pairwise distinct
member names. -/
def NoDuplicateKeys (root : Value) : Prop :=
  ∀ v ∈ root.preorder, v.memberNames.Nodup

/-! ## EnsureValid, FromString, FromStream, ToString -/

/-- The message of the shape error thrown by `EnsureValid`. -/
def shapeErrorMessage : String :=
  "A valid JSON document must be either an array or an object value."

/-- The method `Value::Swap`: the two nodes exchange their contents. -/
def Swap (a b : Value) : Value × Value := (b, a)

/-- What `EnsureValid` leaves behind when it returns: the new root and the
document `json` it was given, as the call left it. -/
structure Validated where
  root : Value
  json : Value

/-- The function `EnsureValid(impl::Document&& json)`, with the validator it calls on
line 116 as a parameter. -/
def EnsureValidWith (validator : Value → Outcome Unit) (json : Value) :
    Outcome Validated :=
  if !json.IsArray && !json.IsObject then
    .threw (.ParseException shapeErrorMessage)
  else
    match validator json with
    | .threw e => .threw e
    | .undefined => .undefined
    | .returned () =>
      -- `std::make_shared<impl::Value>()` is a Null node
      let swapped := Swap Value.null json
      .returned { root := swapped.1, json := swapped.2 }

/-- The function `EnsureValid(impl::Document&& json)`. -/
def EnsureValid (json : Value) : Outcome Validated :=
  EnsureValidWith CheckKeyUniqueness json

/-- A `rapidjson::ParseResult`: error code (`kParseErrorNone` is 0) and
offset. -/
structure ParseResult where
  Code : Nat
  Offset : Nat

/-- The method `ParseResult::IsError()`; `!ok` in the source. -/
def ParseResult.IsError (r : ParseResult) : Bool := r.Code != 0

/-- A `std::istream`: whether `!is` holds, and the bytes it yields. -/
structure IStream where
  fail : Bool
  bytes : String

/-- The rapidjson collaborators of this file. -/
structure Rapidjson where
  /-- the call `Document::Parse(str, length)`: the parse result and the document -/
  Parse : String → ParseResult × Value
  /-- the call `Document::ParseStream(in)`: the parse result and the document -/
  ParseStream : IStream → ParseResult × Value
  /-- the table `rapidjson::GetParseError_En` -/
  GetParseError_En : Nat → String
  /-- the call `Value::Accept(writer)` with a `rapidjson::Writer`: the text written -/
  Write : Value → String

/-- The message `fmt::format("JSON parse error: ... (at offset ...)", ...)` of
lines 135 and 152. -/
def parseErrorMessage (rj : Rapidjson) (ok : ParseResult) : String :=
  "JSON parse error: " ++ rj.GetParseError_En ok.Code ++ " (at offset " ++
    toString ok.Offset ++ ")"

/-- The message of the exception `FromString` throws for an empty text. -/
def emptyInputMessage : String := "JSON document is empty"

/-- The function `FromString(utils::string_view doc)`; the `formats::json::Value` it
returns is given by its root. -/
def FromString (rj : Rapidjson) (doc : String) : Outcome Value :=
  if doc.isEmpty then .threw (.ParseException emptyInputMessage)
  else
    let parsed := rj.Parse doc
    if parsed.1.IsError then .threw (.ParseException (parseErrorMessage rj parsed.1))
    else
      match EnsureValid parsed.2 with
      | .returned r => .returned r.root
      | .threw e => .threw e
      | .undefined => .undefined

/-- The function `FromStream(std::istream& is)`. -/
def FromStream (rj : Rapidjson) (is : IStream) : Outcome Value :=
  if is.fail then .threw .BadStreamException
  else
    let parsed := rj.ParseStream is
    if parsed.1.IsError then .threw (.ParseException (parseErrorMessage rj parsed.1))
    else
      match EnsureValid parsed.2 with
      | .returned r => .returned r.root
      | .threw e => .threw e
      | .undefined => .undefined

/-- The function `ToString(const formats::json::Value& doc)`. -/
def ToString (rj : Rapidjson) (doc : Value) : String := rj.Write doc

/-! ## GetExtendedType -/

/-- The enumeration `Type` of `exttypes.hpp` (the name `Type` is reserved in
Lean). -/
inductive ExtendedType where
  | nullValue
  | objectValue
  | arrayValue
  | stringValue
  | booleanValue
  | intValue
  | uintValue
  | realValue
  | errorValue
deriving DecidableEq, Repr

/-- Modelled from the spec: `GetExtendedType` is declared in `exttypes.hpp`,
its definition is not among the sources.  The spec gives a total, pure map of
a node to one of the nine variants: null, object, array, string and boolean
by kind; a number that fits a signed 64 bit integer is SignedInt, one that is
unsigned-only is UnsignedInt, a fractional one is Real; Error is the
classification failure (here an integer payload no 64 bit type holds). -/
def GetExtendedType (val : Value) : ExtendedType :=
  match val with
  | .null => .nullValue
  | .object _ => .objectValue
  | .array _ => .arrayValue
  | .string _ => .stringValue
  | .bool _ => .booleanValue
  | .number (.integer i) =>
    if -((2 : Int) ^ 63) ≤ i ∧ i ≤ 2 ^ 63 - 1 then .intValue
    else if 0 ≤ i ∧ i ≤ 2 ^ 64 - 1 then .uintValue
    else .errorValue
  | .number (.real _) => .realValue

/-! ## The walk, point by point -/

/-- The stacks the unwind loop of lines 99 to 102 leaves, one after each
`pop_back`, in the order they arise. -/
def unwindPops : List TreeIterFrame → List (List TreeIterFrame)
  | [] => []
  | top :: rest =>
    if top.HasMoreElements then []
    else rest :: (if rest.isEmpty then [] else unwindPops rest)

/-- The stacks one pass through the body of `for (;;)` leaves: the stack
after `Advance` on line 78, then the stack after `emplace_back` on line 97 or
the stacks after each `pop_back` on line 100. -/
def passStacks (stack : List TreeIterFrame) (value : Value) : List (List TreeIterFrame) :=
  match stack with
  | [] => []
  | top :: rest =>
    let stack := top.Advance :: rest
    stack ::
      match (if value.IsObject then findDuplicateKey value else none) with
      | some _ => []
      | none =>
        if (value.IsObject && decide (0 < value.MemberCount)) ||
            (value.IsArray && decide (0 < value.Size)) then
          [TreeIterFrame.ofValue value :: stack]
        else unwindPops stack

/-- The stacks the loop `for (;;)` leaves during at most `fuel` passes, pass
after pass. -/
def walkStacks : Nat → List TreeIterFrame → Value → List (List TreeIterFrame)
  | 0, _, _ => []
  | fuel + 1, stack, value =>
    passStacks stack value ++
      match loopBody stack value with
      | .next stack' value' => walkStacks fuel stack' value'
      | .done _ => []

/-- The stack at every point of `CheckKeyUniqueness(root)` run for at most
`fuel` passes: after line 74 has placed the fake "top" frame, then after
every `Advance`, `emplace_back` and `pop_back`. -/
def CheckKeyUniquenessStacks (fuel : Nat) (root : Value) : List (List TreeIterFrame) :=
  [TreeIterFrame.empty] :: walkStacks fuel [TreeIterFrame.empty] root

/-- The stack and `value` at the top of the loop `for (;;)`, for each of at
most `fuel` passes. -/
def walkStates : Nat → List TreeIterFrame → Value → List (List TreeIterFrame × Value)
  | 0, _, _ => []
  | fuel + 1, stack, value =>
    (stack, value) ::
      match loopBody stack value with
      | .next stack' value' => walkStates fuel stack' value'
      | .done _ => []

/-- The stack and `value` at the top of each pass of
`CheckKeyUniqueness(root)`, run for at most `fuel` passes. -/
def CheckKeyUniquenessStates (fuel : Nat) (root : Value) :
    List (List TreeIterFrame × Value) :=
  walkStates fuel [TreeIterFrame.empty] root

/-- The values the rest of the loop visits after the unwind step on `stack`,
for at most `fuel` further passes. -/
def continueValues (fuel : Nat) (stack : List TreeIterFrame) : List Value :=
  match unwindAndSelect stack with
  | .next stack' value' => (walkStates fuel stack' value').map Prod.snd
  | .done _ => []

/-- The nodes a frame has still to select: those of the subtrees of the
children of its root from index `current_` on. -/
def TreeIterFrame.remaining (f : TreeIterFrame) : Nat :=
  match f.root_ with
  | none => 0
  | some p => Value.nodeCountElems (p.children.drop f.current_.toNat)

/-- The nodes the frames of a stack have still to select. -/
def remainingBelow (stack : List TreeIterFrame) : Nat :=
  (stack.map TreeIterFrame.remaining).sum

/-- The measure of the loop `for (;;)` at the top of a pass: the nodes of the
subtree of `value` and the nodes the frames have still to select once the
back of the stack is advanced, that is, the nodes not visited yet. -/
def walkMeasure (stack : List TreeIterFrame) (value : Value) : Nat :=
  value.nodeCount +
    match stack with
    | [] => 0
    | top :: rest => remainingBelow (top.Advance :: rest)

/-- The node reached from a node by a list of child indices. -/
def Value.descend : Value → List Nat → Option Value
  | v, [] => some v
  | v, j :: js =>
    match v.children[j]? with
    | some c => Value.descend c js
    | none => none

/-- The nodes passed on the way from a node along a list of child indices,
the node itself first and the node reached left out: the proper ancestors of
the node reached, from the top down to its parent. -/
def Value.ancestorsAlong : Value → List Nat → List Value
  | _, [] => []
  | v, j :: js =>
    v :: match v.children[j]? with
      | some c => Value.ancestorsAlong c js
      | none => []

mutual
/-- The nesting depth of a tree: the greatest number of child steps from the
node down to a node of its subtree. -/
def Value.height : Value → Nat
  | .object ms => Value.heightMembers ms
  | .array es => Value.heightElems es
  | _ => 0
/-- One more than the greatest height of a member value, 0 for no member. -/
def Value.heightMembers : List (String × Value) → Nat
  | [] => 0
  | m :: ms => max (Value.height m.2 + 1) (Value.heightMembers ms)
/-- One more than the greatest height of an element, 0 for no element. -/
def Value.heightElems : List Value → Nat
  | [] => 0
  | e :: es => max (Value.height e + 1) (Value.heightElems es)
end

/-- The stack (written from `back()`) is the fake "top" frame under one frame
for each proper ancestor of a node `v` of the tree rooted at `root`, the
frame of the parent of `v` at the back. -/
inductive OnPath (root : Value) : List TreeIterFrame → Value → Prop where
  | top (s : TreeIterFrame) (h : s.root_ = none) : OnPath root [s] root
  | child (f : TreeIterFrame) (stack : List TreeIterFrame) (p v : Value)
      (j : Nat) (below : OnPath root stack p) (hroot : f.root_ = some p)
      (hchild : p.children[j]? = some v) : OnPath root (f :: stack) v

/-- A frame as the walker keeps it on trees whose containers have fewer than
`2 ^ 31` children: the fake "top" frame before or after its one `Advance`,
or the frame of a non-empty array or object with at most all children
selected. -/
def GoodFrame (f : TreeIterFrame) : Prop :=
  (f.root_ = none ∧ f.end_ = 0 ∧ (f.current_ = 0 ∨ f.current_ = 1)) ∨
  ∃ (p : Value) (i : Nat), f = childFrame p i ∧ p.FitsInt = true ∧ p.children ≠ [] ∧
    i ≤ p.children.length

/-- Every frame of a stack is a `GoodFrame`. -/
def StackGood (stack : List TreeIterFrame) : Prop := ∀ f ∈ stack, GoodFrame f

/-- The state at the top of a pass on trees whose containers have fewer than
`2 ^ 31` children: the frames are good, the back of the stack stays so when
advanced, and the subtree of `value` fits. -/
def LoopTop (stack : List TreeIterFrame) (value : Value) : Prop :=
  value.FitsInt = true ∧
  ∃ (top : TreeIterFrame) (rest : List TreeIterFrame), stack = top :: rest ∧
    StackGood rest ∧ GoodFrame top ∧ GoodFrame top.Advance

/-- Every frame of a stack but the fake "top" frame belongs to an array or
object that has children. -/
def StackOfContainers (stack : List TreeIterFrame) : Prop :=
  ∀ f ∈ stack, f.root_ = none ∨ ∃ p : Value, f.root_ = some p ∧ p.children ≠ []

/-- The front of the stack is the fake "top" frame: a frame with a null root
and `end_` 0. -/
def SentinelAtBottom (stack : List TreeIterFrame) : Prop :=
  ∃ s : TreeIterFrame, stack.getLast? = some s ∧ s.root_ = none ∧ s.end_ = 0

/-- In a list of successive stacks, the empty stack is met at the last place
only. -/
def NilOnlyLast (history : List (List TreeIterFrame)) : Prop :=
  ∀ n : Nat, history[n]? = some [] → n + 1 = history.length

/-! ## The values of the enumerations -/

/-- The kinds of the enumeration `rapidjson::Type` of rapidjson.h, which
`exttypes.hpp` includes; rapidjson is outside the repository. -/
inductive RapidjsonType where
  | kNullType
  | kFalseType
  | kTrueType
  | kObjectType
  | kArrayType
  | kStringType
  | kNumberType
deriving DecidableEq, Repr

/-- The values rapidjson.h gives the kinds: 0 to 6 in the order of their
declaration. -/
def RapidjsonType.value : RapidjsonType → Nat
  | .kNullType => 0
  | .kFalseType => 1
  | .kTrueType => 2
  | .kObjectType => 3
  | .kArrayType => 4
  | .kStringType => 5
  | .kNumberType => 6

/-- The value of an enumerator of `Type` in `exttypes.hpp`, for given values
`kind` of the rapidjson kinds: the first four are set to rapidjson kinds,
`booleanValue` is 1000 and each later enumerator is one more than the one
before it. -/
def ExtendedType.valueWith (kind : RapidjsonType → Nat) : ExtendedType → Nat
  | .nullValue => kind .kNullType
  | .objectValue => kind .kObjectType
  | .arrayValue => kind .kArrayType
  | .stringValue => kind .kStringType
  | .booleanValue => 1000
  | .intValue => 1000 + 1
  | .uintValue => 1000 + 2
  | .realValue => 1000 + 3
  | .errorValue => 1000 + 4

/-- The value of an enumerator of `Type` with the kind values of
rapidjson.h. -/
def ExtendedType.value : ExtendedType → Nat :=
  ExtendedType.valueWith RapidjsonType.value

/-! ## Sample documents and collaborators -/

instance (root : Value) : Decidable (NoDuplicateKeys root) :=
  inferInstanceAs (Decidable (∀ v ∈ root.preorder, v.memberNames.Nodup))

/-- The tree of an object with members x, y, y, where x holds an object with
members a, a. -/
def docNestedAndOuter : Value :=
  .object [("x", .object [("a", .number (.integer 1)), ("a", .number (.integer 2))]),
    ("y", .number (.integer 1)), ("y", .number (.integer 2))]

/-- The text of `docNestedAndOuter`. -/
def docNestedAndOuterText : String :=
  "\x7b\"x\":\x7b\"a\":1,\"a\":2\x7d,\"y\":1,\"y\":2\x7d"

/-- The tree of an object with members a, b, b, a. -/
def docTwoRepeats : Value :=
  .object [("a", .number (.integer 1)), ("b", .number (.integer 2)),
    ("b", .number (.integer 3)), ("a", .number (.integer 4))]

/-- The tree of an object with members a and b, each holding an object with
one member a: the same name in a parent, its child and a sibling. -/
def docSharedNames : Value :=
  .object [("a", .object [("a", .number (.integer 1))]),
    ("b", .object [("a", .number (.integer 2))])]

/-- The tree of an array holding an empty array, an object with members x
and y, and a string. -/
def docPlain : Value :=
  .array [.array [], .object [("x", .null), ("y", .array [.bool true])], .string "s"]

/-- The tree of `n` arrays nested in each other, each holding one element,
around a Null node. -/
def nestedArray : Nat → Value
  | 0 => .null
  | n + 1 => .array [nestedArray n]

/-- The tree of an array of `2 ^ 31` Null elements. -/
def bigArray : Value := .array (List.replicate (2 ^ 31) .null)

/-- The text of `bigArray`: `2 ^ 31` times "null", separated by commas, in
brackets. -/
def bigArrayText : String :=
  "[" ++ String.intercalate "," (List.replicate (2 ^ 31) "null") ++ "]"

/-- A collaborator whose parser reads the text `bigArrayText` as the tree
`bigArray` and reports every other text as an error; its writer writes
`bigArrayText`. -/
def parserOfBigArray : Rapidjson where
  Parse := fun doc =>
    if doc = bigArrayText then ({ Code := 0, Offset := 0 }, bigArray)
    else ({ Code := 3, Offset := 0 }, .null)
  ParseStream := fun is =>
    if is.bytes = bigArrayText then ({ Code := 0, Offset := 0 }, bigArray)
    else ({ Code := 3, Offset := 0 }, .null)
  GetParseError_En := fun _ => "Invalid value."
  Write := fun _ => bigArrayText

/-- A collaborator with a fixed answer: the parser accepts every text with
the document `tree`, the writer writes `text`. -/
def parserYielding (tree : Value) (text : String) : Rapidjson where
  Parse := fun _ => ({ Code := 0, Offset := 0 }, tree)
  ParseStream := fun _ => ({ Code := 0, Offset := 0 }, tree)
  GetParseError_En := fun _ => ""
  Write := fun _ => text

/-- A collaborator that reports an input without bytes the way rapidjson
does, as error 1 (`kParseErrorDocumentEmpty`, "The document is empty.") at
offset 0, and accepts every other input with an empty array. -/
def parserRejectingEmpty : Rapidjson where
  Parse := fun doc =>
    if doc.isEmpty then ({ Code := 1, Offset := 0 }, .null)
    else ({ Code := 0, Offset := 0 }, .array [])
  ParseStream := fun is =>
    if is.bytes.isEmpty then ({ Code := 1, Offset := 0 }, .null)
    else ({ Code := 0, Offset := 0 }, .array [])
  GetParseError_En := fun code => if code = 1 then "The document is empty." else ""
  Write := fun _ => "[]"

/-! # Theorems -/

/-! ## Trees -/

theorem Value.nodeCount_eq (v : Value) :
    v.nodeCount = 1 + Value.nodeCountElems v.children := by
  have hm : ∀ ms : List (String × Value),
      Value.nodeCountMembers ms = Value.nodeCountElems (ms.map Prod.snd) := by
    intro ms
    induction ms with
    | nil => rfl
    | cons m ms ih => simp [Value.nodeCountMembers, Value.nodeCountElems, ih]
  cases v <;> simp [Value.nodeCount, Value.children, Value.nodeCountElems, hm]

theorem Value.preorder_eq (v : Value) :
    v.preorder = v :: Value.preorderElems v.children := by
  have hm : ∀ ms : List (String × Value),
      Value.preorderMembers ms = Value.preorderElems (ms.map Prod.snd) := by
    intro ms
    induction ms with
    | nil => rfl
    | cons m ms ih => simp [Value.preorderMembers, Value.preorderElems, ih]
  cases v <;> simp [Value.preorder, Value.children, Value.preorderElems, hm]

theorem Value.FitsInt_children (v : Value) (h : v.FitsInt = true) :
    v.children.length < 2 ^ 31 ∧ ∀ c ∈ v.children, c.FitsInt = true := by
  have hm : ∀ ms : List (String × Value), Value.FitsIntMembers ms = true →
      ∀ c ∈ ms.map Prod.snd, c.FitsInt = true := by
    intro ms
    induction ms with
    | nil => simp
    | cons m ms ih =>
      intro hms c hc
      simp only [Value.FitsIntMembers, Bool.and_eq_true] at hms
      simp only [List.map_cons, List.mem_cons] at hc
      rcases hc with rfl | hc
      · exact hms.1
      · exact ih hms.2 c hc
  have he : ∀ es : List Value, Value.FitsIntElems es = true →
      ∀ c ∈ es, c.FitsInt = true := by
    intro es
    induction es with
    | nil => simp
    | cons e es ih =>
      intro hes c hc
      simp only [Value.FitsIntElems, Bool.and_eq_true] at hes
      simp only [List.mem_cons] at hc
      rcases hc with rfl | hc
      · exact hes.1
      · exact ih hes.2 c hc
  cases v with
  | object ms =>
    simp only [Value.FitsInt, Bool.and_eq_true, decide_eq_true_eq] at h
    exact ⟨by simpa [Value.children] using h.1, hm ms h.2⟩
  | array es =>
    simp only [Value.FitsInt, Bool.and_eq_true, decide_eq_true_eq] at h
    exact ⟨by simpa [Value.children] using h.1, he es h.2⟩
  | null => simp [Value.children]
  | bool b => simp [Value.children]
  | string s => simp [Value.children]
  | number n => simp [Value.children]

/-- Induction on trees: a property holds of every node when it holds of a
node as soon as it holds of the node's children. -/
theorem Value.induct_children {P : Value → Prop}
    (step : ∀ v, (∀ c ∈ v.children, P c) → P v) : ∀ v, P v := by
  intro v
  refine @Value.rec P (fun ms => ∀ m ∈ ms, P m.2) (fun es => ∀ e ∈ es, P e)
    (fun m => P m.2)
    ?_ ?_ ?_ ?_ ?_ ?_ ?_ ?_ ?_ ?_ ?_ v
  · exact step _ (by simp [Value.children])
  · intro b; exact step _ (by simp [Value.children])
  · intro ms ih
    apply step
    intro c hc
    simp only [Value.children, List.mem_map] at hc
    obtain ⟨m, hm, rfl⟩ := hc
    exact ih m hm
  · intro es ih; exact step _ (by simpa [Value.children] using ih)
  · intro s; exact step _ (by simp [Value.children])
  · intro n; exact step _ (by simp [Value.children])
  · simp
  · intro m ms hm hms x hx
    simp only [List.mem_cons] at hx
    rcases hx with rfl | hx
    · exact hm
    · exact hms x hx
  · simp
  · intro e es he hes x hx
    simp only [List.mem_cons] at hx
    rcases hx with rfl | hx
    · exact he
    · exact hes x hx
  · intro _ _ h; exact h

/-! ## Frames -/

theorem intOfSizeType_of_lt {n : Nat} (h : n < 2 ^ 31) : intOfSizeType n = (n : Int) := by
  unfold intOfSizeType
  have h1 : n % 2 ^ 32 = n := Nat.mod_eq_of_lt (Nat.lt_trans h (by norm_num))
  rw [h1, if_pos h]

theorem ofValue_eq_childFrame (v : Value) (hne : v.children ≠ [])
    (hlen : v.children.length < 2 ^ 31) : TreeIterFrame.ofValue v = childFrame v 0 := by
  cases v with
  | object ms =>
    have h : ms.length < 2 ^ 31 := by simpa [Value.children] using hlen
    simp [TreeIterFrame.ofValue, childFrame, Value.IsArray, Value.IsObject, Value.MemberCount,
      Value.members, Value.children, intOfSizeType_of_lt h]
  | array es =>
    have h : es.length < 2 ^ 31 := by simpa [Value.children] using hlen
    simp [TreeIterFrame.ofValue, childFrame, Value.IsArray, Value.Size,
      Value.elems, Value.children, intOfSizeType_of_lt h]
  | null => exact absurd rfl hne
  | bool b => exact absurd rfl hne
  | string s => exact absurd rfl hne
  | number n => exact absurd rfl hne

theorem childFrame_Advance (p : Value) (i : Nat) :
    (childFrame p i).Advance = childFrame p (i + 1) := by
  simp [TreeIterFrame.Advance, childFrame]

theorem childFrame_HasMoreElements (p : Value) (i : Nat) :
    (childFrame p i).HasMoreElements = decide (i < p.children.length) := by
  simp [TreeIterFrame.HasMoreElements, childFrame]

theorem childFrame_CurrentValue (p : Value) (i : Nat) (c : Value)
    (h : p.children[i]? = some c) : (childFrame p i).CurrentValue = some c := by
  have hi : i < p.children.length := (List.getElem?_eq_some_iff.mp h).1
  have hlt : ((i : Nat) : Int) < ((p.children.length : Nat) : Int) := by exact_mod_cast hi
  have hnn : ¬ ((i : Nat) : Int) < 0 := by omega
  cases p with
  | object ms =>
    simp only [Value.children, List.getElem?_map] at h
    simp only [TreeIterFrame.CurrentValue, childFrame, if_pos hlt, if_neg hnn, Value.IsArray,
      Value.IsObject, Value.members, Int.toNat_ofNat]
    simpa using h
  | array es =>
    simp only [Value.children] at h
    simp only [TreeIterFrame.CurrentValue, childFrame, if_pos hlt, if_neg hnn, Value.IsArray,
      Value.elems, Int.toNat_ofNat]
    simpa using h
  | null => simp [Value.children] at h
  | bool b => simp [Value.children] at h
  | string s => simp [Value.children] at h
  | number n => simp [Value.children] at h

/-! ## One pass of the loop -/

theorem descend_condition (v : Value) :
    ((v.IsObject && decide (0 < v.MemberCount)) || (v.IsArray && decide (0 < v.Size)))
      = !v.children.isEmpty := by
  cases v with
  | object ms =>
    cases ms <;> simp [Value.IsObject, Value.IsArray, Value.MemberCount, Value.members,
      Value.children]
  | array es =>
    cases es <;> simp [Value.IsObject, Value.IsArray, Value.Size, Value.elems, Value.children]
  | null => simp [Value.IsObject, Value.IsArray, Value.children]
  | bool b => simp [Value.IsObject, Value.IsArray, Value.children]
  | string s => simp [Value.IsObject, Value.IsArray, Value.children]
  | number n => simp [Value.IsObject, Value.IsArray, Value.children]

theorem unwindAndSelect_more (p : Value) (i : Nat) (c : Value) (stk : List TreeIterFrame)
    (h : p.children[i]? = some c) :
    unwindAndSelect (childFrame p i :: stk) = .next (childFrame p i :: stk) c := by
  have hi : i < p.children.length := (List.getElem?_eq_some_iff.mp h).1
  simp [unwindAndSelect, unwind, childFrame_HasMoreElements, hi, selectCurrent,
    childFrame_CurrentValue p i c h]

theorem unwindAndSelect_exhausted (p : Value) (stk : List TreeIterFrame) (hstk : stk ≠ []) :
    unwindAndSelect (childFrame p p.children.length :: stk) = unwindAndSelect stk := by
  cases stk with
  | nil => exact absurd rfl hstk
  | cons f below => simp [unwindAndSelect, unwind, childFrame_HasMoreElements]

theorem loopBody_throw (top : TreeIterFrame) (rest : List TreeIterFrame) (v : Value)
    (key : String) (h : nodeDuplicate v = some key) :
    loopBody (top :: rest) v = .done (.threw (duplicateKeyError key)) := by
  unfold nodeDuplicate at h
  simp [loopBody, h, duplicateKeyError]

theorem loopBody_leaf (top : TreeIterFrame) (rest : List TreeIterFrame) (v : Value)
    (h : nodeDuplicate v = none) (hc : v.children = []) :
    loopBody (top :: rest) v = unwindAndSelect (top.Advance :: rest) := by
  unfold nodeDuplicate at h
  simp [loopBody, h, descend_condition, hc]

theorem loopBody_descend (top : TreeIterFrame) (rest : List TreeIterFrame) (v : Value)
    (h : nodeDuplicate v = none) (hc : v.children ≠ []) (hlen : v.children.length < 2 ^ 31) :
    loopBody (top :: rest) v = unwindAndSelect (childFrame v 0 :: top.Advance :: rest) := by
  unfold nodeDuplicate at h
  obtain ⟨c, cs, hcs⟩ := List.exists_cons_of_ne_nil hc
  have h0 : v.children[0]? = some c := by simp [hcs]
  rw [unwindAndSelect_more v 0 c _ h0]
  simp [loopBody, h, descend_condition, hc, ofValue_eq_childFrame v hc hlen, selectCurrent,
    childFrame_CurrentValue v 0 c h0]

theorem walk_succ (fuel : Nat) (stack : List TreeIterFrame) (value : Value) :
    walk (fuel + 1) stack value =
      match loopBody stack value with
      | .next stack' value' => walk fuel stack' value'
      | .done r => some r := rfl

/-! ## The walk over a subtree -/

theorem scanNodes_cons (v : Value) (nodes : List Value) :
    scanNodes (v :: nodes) = (nodeDuplicate v).or (scanNodes nodes) := by
  unfold scanNodes
  rw [List.findSome?_cons]
  cases nodeDuplicate v <;> rfl

theorem scanNodes_append (xs ys : List Value) :
    scanNodes (xs ++ ys) = (scanNodes xs).or (scanNodes ys) := by
  unfold scanNodes
  exact List.findSome?_append

theorem throwOr_or (a b : Option String) (cont : Option (Outcome Unit)) :
    throwOr (a.or b) cont = throwOr a (throwOr b cont) := by
  cases a <;> rfl

/-- The walk over the children of `p` that have not been selected yet: it
ends with the first duplicate key below them, or goes on with the frames
under the frame of `p`. -/
theorem walk_children (p : Value) (stk : List TreeIterFrame) (hstk : stk ≠ []) :
    ∀ (suf pre : List Value), p.children = pre ++ suf →
      (∀ c ∈ suf, ∀ (top : TreeIterFrame) (rest : List TreeIterFrame) (fuel : Nat),
        walk (c.nodeCount + fuel) (top :: rest) c =
          throwOr (scanNodes c.preorder) (continueFrom fuel (top.Advance :: rest))) →
      ∀ fuel : Nat,
        continueFrom (Value.nodeCountElems suf + fuel) (childFrame p pre.length :: stk) =
          throwOr (scanNodes (Value.preorderElems suf)) (continueFrom fuel stk) := by
  intro suf
  induction suf with
  | nil =>
    intro pre hp _ fuel
    have hlen : pre.length = p.children.length := by simp [hp]
    simp only [Value.nodeCountElems, Value.preorderElems, Nat.zero_add]
    rw [hlen]
    unfold continueFrom
    rw [unwindAndSelect_exhausted p stk hstk]
    rfl
  | cons c suf ih =>
    intro pre hp hA fuel
    have hc : p.children[pre.length]? = some c := by
      rw [hp, List.getElem?_append_right (Nat.le_refl _)]
      simp
    have hp' : p.children = (pre ++ [c]) ++ suf := by simp [hp]
    have step := ih (pre ++ [c]) hp' (fun d hd => hA d (List.mem_cons_of_mem c hd)) fuel
    simp only [List.length_append, List.length_singleton] at step
    have hfuel : Value.nodeCountElems (c :: suf) + fuel
        = c.nodeCount + (Value.nodeCountElems suf + fuel) := by
      simp only [Value.nodeCountElems]; omega
    rw [hfuel]
    conv_lhs => unfold continueFrom
    rw [unwindAndSelect_more p pre.length c stk hc]
    simp only
    rw [hA c (List.mem_cons_self c suf), childFrame_Advance, step]
    simp only [Value.preorderElems, scanNodes_append, throwOr_or]

/-- The walk over the subtree of `v`, started with `v` as `value`: it ends
with the first duplicate key of the subtree in pre-order, or, after one pass
for each node, goes on with the unwind step on the stack it started with. -/
theorem walk_subtree : ∀ v : Value, v.FitsInt = true →
    ∀ (top : TreeIterFrame) (rest : List TreeIterFrame) (fuel : Nat),
      walk (v.nodeCount + fuel) (top :: rest) v =
        throwOr (scanNodes v.preorder) (continueFrom fuel (top.Advance :: rest)) := by
  refine Value.induct_children ?_
  intro v ih hfit top rest fuel
  obtain ⟨hlen, hcs⟩ := Value.FitsInt_children v hfit
  have hfuel : v.nodeCount + fuel = (Value.nodeCountElems v.children + fuel) + 1 := by
    rw [Value.nodeCount_eq]; omega
  rw [hfuel, walk_succ, Value.preorder_eq, scanNodes_cons, throwOr_or]
  cases hnd : nodeDuplicate v with
  | some key => rw [loopBody_throw top rest v key hnd]; rfl
  | none =>
    by_cases hc : v.children = []
    · rw [loopBody_leaf top rest v hnd hc, hc]
      simp only [Value.nodeCountElems, Value.preorderElems, Nat.zero_add]
      rfl
    · rw [loopBody_descend top rest v hnd hc hlen]
      have key := walk_children v (top.Advance :: rest) (by simp) v.children [] (by simp)
        (fun c hcmem => ih c hcmem (hcs c hcmem)) fuel
      simp only [List.length_nil] at key
      unfold continueFrom at key
      exact key

/-- Enough passes end the call: with one pass for every node of the tree or
more, the walker throws for the first duplicate key in pre-order, and
returns when there is none. -/
theorem walk_enough_fuel (root : Value) (hfit : root.FitsInt = true) (fuel : Nat)
    (hfuel : root.nodeCount ≤ fuel) :
    CheckKeyUniquenessFuel fuel root =
      some (match scanNodes root.preorder with
        | some key => .threw (duplicateKeyError key)
        | none => .returned ()) := by
  obtain ⟨extra, rfl⟩ := Nat.exists_eq_add_of_le hfuel
  unfold CheckKeyUniquenessFuel
  rw [walk_subtree root hfit]
  cases scanNodes root.preorder with
  | some key => rfl
  | none =>
    simp [throwOr, continueFrom, unwindAndSelect, unwind, TreeIterFrame.Advance,
      TreeIterFrame.empty, TreeIterFrame.HasMoreElements]

theorem CheckKeyUniqueness_eq (root : Value) (hfit : root.FitsInt = true) :
    CheckKeyUniqueness root =
      match scanNodes root.preorder with
      | some key => .threw (duplicateKeyError key)
      | none => .returned () := by
  unfold CheckKeyUniqueness
  rw [walk_enough_fuel root hfit root.nodeCount (Nat.le_refl _)]

/-! ## The key comparison of one object -/

theorem keyEqualsEarlier_iff (ms : List (String × Value)) (i : Nat) :
    keyEqualsEarlier ms i = true ↔ RepeatsEarlierName ms i := by
  unfold keyEqualsEarlier RepeatsEarlierName AsStringView
  rw [List.any_eq_true]
  constructor
  · rintro ⟨j, hj, h⟩
    rw [List.mem_range] at hj
    cases hi : ms[i]? with
    | none => simp [hi] at h
    | some mi =>
      cases hjj : ms[j]? with
      | none => simp [hi, hjj] at h
      | some mj =>
        simp only [hi, hjj, beq_iff_eq] at h
        exact ⟨j, mj, mi, hj, hjj, rfl, h⟩
  · rintro ⟨j, a, b, hj, ha, hb, hab⟩
    exact ⟨j, List.mem_range.mpr hj, by simp [ha, hb, hab]⟩

theorem findSome_range_some {β : Type} (f : Nat → Option β) (k : β) :
    ∀ (n s : Nat), (List.range' s n).findSome? f = some k →
      ∃ i, s ≤ i ∧ i < s + n ∧ f i = some k ∧
        ∀ i', s ≤ i' → i' < i → f i' = none := by
  intro n
  induction n with
  | zero => intro s h; simp at h
  | succ n ih =>
    intro s h
    rw [List.range'_succ, List.findSome?_cons] at h
    cases hf : f s with
    | some b =>
      rw [hf] at h
      simp only [Option.some.injEq] at h
      subst h
      exact ⟨s, Nat.le_refl _, by omega, hf, fun i' h1 h2 => absurd h1 (by omega)⟩
    | none =>
      rw [hf] at h
      obtain ⟨i, h1, h2, h3, h4⟩ := ih (s + 1) h
      refine ⟨i, by omega, by omega, h3, ?_⟩
      intro i' hi1 hi2
      by_cases hs : i' = s
      · rw [hs]; exact hf
      · exact h4 i' (by omega) hi2

theorem findDuplicateKey_object (ms : List (String × Value)) (hlen : ms.length < 2 ^ 31) :
    findDuplicateKey (.object ms) =
      (List.range' 1 (ms.length - 1)).findSome? fun i =>
        if keyEqualsEarlier ms i then (ms[i]?).map fun m => m.1 else none := by
  have hcount : ((ms.length : Int) - 1).toNat = ms.length - 1 := by omega
  simp only [findDuplicateKey, Value.MemberCount, Value.members, intOfSizeType_of_lt hlen,
    hcount, AsStringView]

theorem findDuplicateKey_some (ms : List (String × Value)) (hlen : ms.length < 2 ^ 31)
    (k : String) (h : findDuplicateKey (.object ms) = some k) :
    ∃ i m, RepeatsEarlierName ms i ∧ (∀ i', i' < i → ¬ RepeatsEarlierName ms i') ∧
      ms[i]? = some m ∧ m.1 = k := by
  rw [findDuplicateKey_object ms hlen] at h
  obtain ⟨i, h1, _, h3, h4⟩ := findSome_range_some _ k _ _ h
  by_cases hk : keyEqualsEarlier ms i = true
  · rw [if_pos hk] at h3
    obtain ⟨m, hm, hmk⟩ := Option.map_eq_some'.mp h3
    refine ⟨i, m, (keyEqualsEarlier_iff ms i).mp hk, ?_, hm, hmk⟩
    intro i' hi' hrep
    have hrep' := hrep
    obtain ⟨j, a, b, hj, _, hb, _⟩ := hrep
    have hnone := h4 i' (by omega) hi'
    rw [if_pos ((keyEqualsEarlier_iff ms i').mpr hrep'), hb] at hnone
    simp at hnone
  · rw [if_neg hk] at h3
    exact absurd h3 (by simp)

theorem findDuplicateKey_none_iff (ms : List (String × Value)) (hlen : ms.length < 2 ^ 31) :
    findDuplicateKey (.object ms) = none ↔ ∀ i, ¬ RepeatsEarlierName ms i := by
  rw [findDuplicateKey_object ms hlen, List.findSome?_eq_none_iff]
  constructor
  · intro h i hrep
    have hrep' := hrep
    obtain ⟨j, a, b, hj, _, hb, _⟩ := hrep
    have hi : i < ms.length := (List.getElem?_eq_some_iff.mp hb).1
    have hnone := h i (List.mem_range'_1.mpr ⟨by omega, by omega⟩)
    rw [if_pos ((keyEqualsEarlier_iff ms i).mpr hrep'), hb] at hnone
    simp at hnone
  · intro h i _
    have hk : ¬ keyEqualsEarlier ms i = true := fun hk => h i ((keyEqualsEarlier_iff ms i).mp hk)
    rw [if_neg hk]

theorem nodup_names_iff (ms : List (String × Value)) :
    (ms.map Prod.fst).Nodup ↔ ∀ i, ¬ RepeatsEarlierName ms i := by
  rw [List.nodup_iff_getElem?_ne_getElem?]
  constructor
  · rintro h i ⟨j, a, b, hj, ha, hb, hab⟩
    have hi : i < ms.length := (List.getElem?_eq_some_iff.mp hb).1
    exact h j i hj (by simpa using hi) (by simp [List.getElem?_map, ha, hb, hab])
  · intro h i j hij hj heq
    have hj' : j < ms.length := by simpa using hj
    have hi' : i < ms.length := Nat.lt_trans hij hj'
    have ha : ms[i]? = some ms[i] := List.getElem?_eq_getElem hi'
    have hb : ms[j]? = some ms[j] := List.getElem?_eq_getElem hj'
    rw [List.getElem?_map, List.getElem?_map, ha, hb] at heq
    simp only [Option.map_some', Option.some.injEq] at heq
    exact h j ⟨i, ms[i], ms[j], hij, ha, hb, heq.symm⟩

theorem nodeDuplicate_none_iff (v : Value) (hlen : v.children.length < 2 ^ 31) :
    nodeDuplicate v = none ↔ v.memberNames.Nodup := by
  cases v with
  | object ms =>
    have h : ms.length < 2 ^ 31 := by simpa [Value.children] using hlen
    simp only [nodeDuplicate, Value.IsObject, if_true, Value.memberNames, Value.members]
    rw [findDuplicateKey_none_iff ms h, nodup_names_iff]
  | array es => simp [nodeDuplicate, Value.IsObject, Value.memberNames, Value.members]
  | null => simp [nodeDuplicate, Value.IsObject, Value.memberNames, Value.members]
  | bool b => simp [nodeDuplicate, Value.IsObject, Value.memberNames, Value.members]
  | string s => simp [nodeDuplicate, Value.IsObject, Value.memberNames, Value.members]
  | number n => simp [nodeDuplicate, Value.IsObject, Value.memberNames, Value.members]

/-! ## Nodes of a tree -/

theorem mem_preorderElems (v : Value) (cs : List Value) :
    v ∈ Value.preorderElems cs ↔ ∃ c ∈ cs, v ∈ c.preorder := by
  induction cs with
  | nil => simp [Value.preorderElems]
  | cons c cs ih => simp [Value.preorderElems, List.mem_append, ih]

theorem FitsInt_of_mem_preorder : ∀ root : Value, root.FitsInt = true →
    ∀ v ∈ root.preorder, v.FitsInt = true := by
  refine Value.induct_children ?_
  intro root ih hfit v hv
  rw [Value.preorder_eq, List.mem_cons] at hv
  rcases hv with rfl | hv
  · exact hfit
  · obtain ⟨c, hc, hvc⟩ := (mem_preorderElems v root.children).mp hv
    exact ih c hc ((Value.FitsInt_children root hfit).2 c hc) v hvc

theorem scanNodes_none_iff (root : Value) (hfit : root.FitsInt = true) :
    scanNodes root.preorder = none ↔ NoDuplicateKeys root := by
  unfold scanNodes NoDuplicateKeys
  rw [List.findSome?_eq_none_iff]
  constructor
  · intro h v hv
    have hlen := (Value.FitsInt_children v (FitsInt_of_mem_preorder root hfit v hv)).1
    exact (nodeDuplicate_none_iff v hlen).mp (h v hv)
  · intro h v hv
    have hlen := (Value.FitsInt_children v (FitsInt_of_mem_preorder root hfit v hv)).1
    exact (nodeDuplicate_none_iff v hlen).mpr (h v hv)

theorem equal_names_iff (ms : List (String × Value)) :
    (∃ (i j : Nat) (a b : String × Value),
        i < j ∧ ms[i]? = some a ∧ ms[j]? = some b ∧ a.1 = b.1) ↔
      ¬ (ms.map Prod.fst).Nodup := by
  rw [nodup_names_iff]
  constructor
  · rintro ⟨i, j, a, b, hij, ha, hb, hab⟩ h
    exact h j ⟨i, a, b, hij, ha, hb, hab.symm⟩
  · intro h
    obtain ⟨j, hj⟩ := not_forall.mp h
    obtain ⟨i, a, b, hij, ha, hb, hab⟩ := not_not.mp hj
    exact ⟨i, j, a, b, hij, ha, hb, hab.symm⟩

theorem duplicate_iff_not_NoDuplicateKeys (root : Value) :
    HasDuplicateKey root ↔ ¬ NoDuplicateKeys root := by
  unfold NoDuplicateKeys HasDuplicateKey
  constructor
  · rintro ⟨ms, i, j, a, b, hmem, hrest⟩ h
    exact (equal_names_iff ms).mp ⟨i, j, a, b, hrest⟩ (h _ hmem)
  · intro h
    obtain ⟨v, hv⟩ := not_forall.mp h
    obtain ⟨hmem, hnd⟩ := Classical.not_imp.mp hv
    cases v with
    | object ms =>
      obtain ⟨i, j, a, b, hrest⟩ := (equal_names_iff ms).mpr hnd
      exact ⟨ms, i, j, a, b, hmem, hrest⟩
    | array es => exact absurd List.nodup_nil hnd
    | null => exact absurd List.nodup_nil hnd
    | bool b => exact absurd List.nodup_nil hnd
    | string s => exact absurd List.nodup_nil hnd
    | number n => exact absurd List.nodup_nil hnd

theorem scanNodes_some_named (root : Value) (hfit : root.FitsInt = true) (k : String)
    (h : scanNodes root.preorder = some k) : HasTwoMembersNamed root k := by
  obtain ⟨pre, O, post, hsplit, hO, _⟩ := List.findSome?_eq_some_iff.mp h
  have hOmem : O ∈ root.preorder := by rw [hsplit]; simp
  have hOlen := (Value.FitsInt_children O (FitsInt_of_mem_preorder root hfit O hOmem)).1
  cases O with
  | object ms =>
    have hmslen : ms.length < 2 ^ 31 := by simpa [Value.children] using hOlen
    have hfd : findDuplicateKey (.object ms) = some k := by
      simpa [nodeDuplicate, Value.IsObject] using hO
    obtain ⟨i, m, ⟨j, a, b, hj, ha, hb, hab⟩, _, hm, hmk⟩ :=
      findDuplicateKey_some ms hmslen k hfd
    have hbm : b = m := Option.some.inj (hb.symm.trans hm)
    subst hbm
    exact ⟨ms, j, i, a, b, hOmem, hj, ha, hb, hab.symm.trans hmk, hmk⟩
  | array es => simp [nodeDuplicate, Value.IsObject] at hO
  | null => simp [nodeDuplicate, Value.IsObject] at hO
  | bool b => simp [nodeDuplicate, Value.IsObject] at hO
  | string s => simp [nodeDuplicate, Value.IsObject] at hO
  | number n => simp [nodeDuplicate, Value.IsObject] at hO

/-! ## Exceptions of the walk -/

theorem selectCurrent_ne_threw (stk : List TreeIterFrame) (e : Exception) :
    selectCurrent stk ≠ .done (.threw e) := by
  cases stk with
  | nil => simp [selectCurrent]
  | cons top rest =>
    cases h : top.CurrentValue <;> simp [selectCurrent, h]

theorem unwindAndSelect_ne_threw (stk : List TreeIterFrame) (e : Exception) :
    unwindAndSelect stk ≠ .done (.threw e) := by
  unfold unwindAndSelect
  cases unwind stk with
  | resume stk' => exact selectCurrent_ne_threw stk' e
  | finished => simp
  | undefined => simp

theorem loopBody_threw (stk : List TreeIterFrame) (v : Value) (e : Exception)
    (h : loopBody stk v = .done (.threw e)) : ∃ k, e = duplicateKeyError k := by
  cases stk with
  | nil => simp [loopBody] at h
  | cons top rest =>
    cases hnd : nodeDuplicate v with
    | some key =>
      rw [loopBody_throw top rest v key hnd] at h
      simp only [Iteration.done.injEq, Outcome.threw.injEq] at h
      exact ⟨key, h.symm⟩
    | none =>
      unfold nodeDuplicate at hnd
      simp only [loopBody, hnd] at h
      split at h
      · exact absurd h (selectCurrent_ne_threw _ e)
      · exact absurd h (unwindAndSelect_ne_threw _ e)

theorem walk_threw : ∀ (fuel : Nat) (stk : List TreeIterFrame) (v : Value) (e : Exception),
    walk fuel stk v = some (.threw e) → ∃ k, e = duplicateKeyError k := by
  intro fuel
  induction fuel with
  | zero => intro stk v e h; simp [walk] at h
  | succ fuel ih =>
    intro stk v e h
    rw [walk_succ] at h
    cases hb : loopBody stk v with
    | next stk' v' => rw [hb] at h; exact ih stk' v' e h
    | done r =>
      rw [hb] at h
      simp only [Option.some.injEq] at h
      rw [h] at hb
      exact loopBody_threw stk v e hb

theorem CheckKeyUniqueness_threw (root : Value) (e : Exception)
    (h : CheckKeyUniqueness root = .threw e) : ∃ k, e = duplicateKeyError k := by
  unfold CheckKeyUniqueness at h
  cases hw : CheckKeyUniquenessFuel root.nodeCount root with
  | none => rw [hw] at h; cases h
  | some r =>
    rw [hw] at h
    simp only at h
    rw [h] at hw
    exact walk_threw _ _ _ e hw

/-! ## EnsureValid and the document builder -/

theorem EnsureValid_container (t : Value) (htop : t.IsArray = true ∨ t.IsObject = true) :
    EnsureValid t =
      match CheckKeyUniqueness t with
      | .threw e => .threw e
      | .undefined => .undefined
      | .returned () => .returned { root := t, json := .null } := by
  have hcond : (!t.IsArray && !t.IsObject) = false := by
    rcases htop with h | h <;> simp [h]
  simp only [EnsureValid, EnsureValidWith, hcond, Swap]
  rfl

theorem EnsureValidWith_scalar (validator : Value → Outcome Unit) (t : Value)
    (hA : t.IsArray = false) (hO : t.IsObject = false) :
    EnsureValidWith validator t = .threw (.ParseException shapeErrorMessage) := by
  simp [EnsureValidWith, hA, hO]

theorem EnsureValid_valid (t : Value) (hfit : t.FitsInt = true)
    (htop : t.IsArray = true ∨ t.IsObject = true) (hnodup : NoDuplicateKeys t) :
    EnsureValid t = .returned { root := t, json := .null } := by
  rw [EnsureValid_container t htop, CheckKeyUniqueness_eq t hfit,
    (scanNodes_none_iff t hfit).mpr hnodup]

theorem EnsureValid_returned (t : Value) (hfit : t.FitsInt = true) (r : Validated)
    (h : EnsureValid t = .returned r) :
    (t.IsArray = true ∨ t.IsObject = true) ∧ NoDuplicateKeys t ∧
      r = { root := t, json := .null } := by
  by_cases htop : t.IsArray = true ∨ t.IsObject = true
  · rw [EnsureValid_container t htop, CheckKeyUniqueness_eq t hfit] at h
    cases hs : scanNodes t.preorder with
    | some k => rw [hs] at h; cases h
    | none =>
      rw [hs] at h
      simp only [Outcome.returned.injEq] at h
      exact ⟨htop, (scanNodes_none_iff t hfit).mp hs, h.symm⟩
  · have hA : t.IsArray = false := by
      cases hh : t.IsArray
      · rfl
      · exact absurd (Or.inl hh) htop
    have hO : t.IsObject = false := by
      cases hh : t.IsObject
      · rfl
      · exact absurd (Or.inr hh) htop
    rw [EnsureValid, EnsureValidWith_scalar _ t hA hO] at h
    cases h

theorem FromString_parsed (rj : Rapidjson) (doc : String) (hne : doc.isEmpty = false)
    (hok : (rj.Parse doc).1.IsError = false) :
    FromString rj doc =
      match EnsureValid (rj.Parse doc).2 with
      | .returned r => .returned r.root
      | .threw e => .threw e
      | .undefined => .undefined := by
  simp [FromString, hne, hok]

theorem FromStream_parsed (rj : Rapidjson) (is : IStream) (hgood : is.fail = false)
    (hok : (rj.ParseStream is).1.IsError = false) :
    FromStream rj is =
      match EnsureValid (rj.ParseStream is).2 with
      | .returned r => .returned r.root
      | .threw e => .threw e
      | .undefined => .undefined := by
  simp [FromStream, hgood, hok]

theorem FromString_returned (rj : Rapidjson) (doc : String) (v : Value)
    (h : FromString rj doc = .returned v) :
    ∃ r, EnsureValid (rj.Parse doc).2 = .returned r ∧ r.root = v := by
  unfold FromString at h
  split at h
  · cases h
  · simp only at h
    split at h
    · cases h
    · cases he : EnsureValid (rj.Parse doc).2 with
      | returned r =>
        rw [he] at h
        simp only [Outcome.returned.injEq] at h
        exact ⟨r, rfl, h⟩
      | threw e => rw [he] at h; cases h
      | undefined => rw [he] at h; cases h

theorem FromStream_returned (rj : Rapidjson) (is : IStream) (v : Value)
    (h : FromStream rj is = .returned v) :
    ∃ r, EnsureValid (rj.ParseStream is).2 = .returned r ∧ r.root = v := by
  unfold FromStream at h
  split at h
  · cases h
  · simp only at h
    split at h
    · cases h
    · cases he : EnsureValid (rj.ParseStream is).2 with
      | returned r =>
        rw [he] at h
        simp only [Outcome.returned.injEq] at h
        exact ⟨r, rfl, h⟩
      | threw e => rw [he] at h; cases h
      | undefined => rw [he] at h; cases h

theorem EnsureValid_never_empty_input (t : Value) :
    EnsureValid t ≠ .threw (.ParseException "JSON document is empty") := by
  intro h
  by_cases htop : t.IsArray = true ∨ t.IsObject = true
  · rw [EnsureValid_container t htop] at h
    cases hc : CheckKeyUniqueness t with
    | returned u => rw [hc] at h; cases h
    | undefined => rw [hc] at h; cases h
    | threw e =>
      rw [hc] at h
      obtain ⟨k, hk⟩ := CheckKeyUniqueness_threw t e hc
      rw [hk] at h
      simp only [duplicateKeyError, Outcome.threw.injEq, Exception.ParseException.injEq] at h
      have h2 := congrArg String.data h
      simp [String.data_append] at h2
  · have hA : t.IsArray = false := by
      cases hh : t.IsArray
      · rfl
      · exact absurd (Or.inl hh) htop
    have hO : t.IsObject = false := by
      cases hh : t.IsObject
      · rfl
      · exact absurd (Or.inr hh) htop
    rw [EnsureValid, EnsureValidWith_scalar _ t hA hO] at h
    simp only [shapeErrorMessage, Outcome.threw.injEq, Exception.ParseException.injEq] at h
    exact absurd h (by decide)

theorem parseErrorMessage_ne_empty_input (rj : Rapidjson) (ok : ParseResult) :
    parseErrorMessage rj ok ≠ "JSON document is empty" := by
  intro h
  have h2 := congrArg String.data h
  simp [parseErrorMessage, String.data_append] at h2

/-! ## CheckKeyUniqueness -/

/-- C1: on a tree whose containers each have fewer than 2^31 children,
`CheckKeyUniqueness` throws a `ParseException` exactly when some object node
of the tree, at any depth, has two members with equal names, and returns
exactly when there is no such object; one pass of the loop per node is enough
fuel for the call to end.  A name shared by a parent, its child and a sibling
object (`docSharedNames`) is no failure. -/
theorem CheckKeyUniqueness_throws_iff_duplicate (root : Value) (hfit : root.FitsInt = true) :
    ((∃ msg, CheckKeyUniqueness root = .threw (.ParseException msg)) ↔
      HasDuplicateKey root) ∧
    (CheckKeyUniqueness root = .returned () ↔
      ¬ HasDuplicateKey root) ∧
    (∀ fuel, root.nodeCount ≤ fuel →
      CheckKeyUniquenessFuel fuel root = some (CheckKeyUniqueness root)) ∧
    CheckKeyUniqueness docSharedNames = .returned () := by
  have hcku := CheckKeyUniqueness_eq root hfit
  have hnone := scanNodes_none_iff root hfit
  rw [duplicate_iff_not_NoDuplicateKeys]
  refine ⟨?_, ?_, ?_, rfl⟩
  · cases hs : scanNodes root.preorder with
    | some key =>
      rw [hs] at hcku hnone
      constructor
      · intro _ hno
        exact absurd (hnone.mpr hno) (by simp)
      · intro _
        exact ⟨_, hcku⟩
    | none =>
      rw [hs] at hcku hnone
      constructor
      · rintro ⟨msg, hmsg⟩
        rw [hcku] at hmsg
        cases hmsg
      · intro hno
        exact absurd (hnone.mp rfl) hno
  · cases hs : scanNodes root.preorder with
    | some key =>
      rw [hs] at hcku hnone
      constructor
      · intro hret
        rw [hcku] at hret
        cases hret
      · intro hno
        exact absurd (hnone.mpr (not_not.mp hno)) (by simp)
    | none =>
      rw [hs] at hcku hnone
      exact ⟨fun _ => not_not.mpr (hnone.mp rfl), fun _ => hcku⟩
  · intro fuel hfuel
    rw [walk_enough_fuel root hfit fuel hfuel, hcku]

/-- Witness of C1 at the object with members a, b, b, a: the tree fits, its
root has equal names at members 1 and 2, and the call throws. -/
theorem CheckKeyUniqueness_throws_iff_duplicate_witness :
    docTwoRepeats.FitsInt = true ∧
      ∃ msg, CheckKeyUniqueness docTwoRepeats = .threw (.ParseException msg) :=
  ⟨by decide,
    (CheckKeyUniqueness_throws_iff_duplicate docTwoRepeats (by decide)).1.mpr
      ⟨_, 1, 2, ("b", .number (.integer 2)), ("b", .number (.integer 3)),
        List.mem_cons_self _ _, by decide, rfl, rfl, rfl⟩⟩

/-- When `CheckKeyUniqueness` throws, on a tree whose containers each
have fewer than 2^31 children, the pre-order listing of the tree splits as
`pre ++ O :: post` where no node of `pre` has two members with equal names,
`O` is an object, `i` is the lowest index of a member of `O` whose name
equals the name of an earlier member of `O`, and the exception is a
`ParseException` with message "Duplicate key: " followed by the name of
member `i`.  The object with members x (holding a, a), y, y reports y; the
object with members a, b, b, a reports b. -/
theorem CheckKeyUniqueness_reports_first_duplicate (root : Value)
    (hfit : root.FitsInt = true) (e : Exception) (h : CheckKeyUniqueness root = .threw e) :
    (∃ pre ms post i m, root.preorder = pre ++ Value.object ms :: post ∧
      (∀ v ∈ pre, v.memberNames.Nodup) ∧
      RepeatsEarlierName ms i ∧ (∀ i', i' < i → ¬ RepeatsEarlierName ms i') ∧
      ms[i]? = some m ∧ e = .ParseException ("Duplicate key: " ++ m.1)) ∧
    CheckKeyUniqueness docNestedAndOuter = .threw (.ParseException "Duplicate key: y") ∧
    CheckKeyUniqueness docTwoRepeats = .threw (.ParseException "Duplicate key: b") := by
  refine ⟨?_, rfl, rfl⟩
  rw [CheckKeyUniqueness_eq root hfit] at h
  cases hs : scanNodes root.preorder with
  | none => rw [hs] at h; cases h
  | some key =>
    rw [hs] at h
    simp only [Outcome.threw.injEq] at h
    obtain ⟨pre, O, post, hsplit, hO, hpre⟩ := List.findSome?_eq_some_iff.mp hs
    have hOmem : O ∈ root.preorder := by rw [hsplit]; simp
    have hOlen := (Value.FitsInt_children O (FitsInt_of_mem_preorder root hfit O hOmem)).1
    have hprenodup : ∀ v ∈ pre, v.memberNames.Nodup := by
      intro v hv
      have hvmem : v ∈ root.preorder := by rw [hsplit]; simp [hv]
      have hlen := (Value.FitsInt_children v (FitsInt_of_mem_preorder root hfit v hvmem)).1
      exact (nodeDuplicate_none_iff v hlen).mp (hpre v hv)
    cases O with
    | object ms =>
      have hmslen : ms.length < 2 ^ 31 := by simpa [Value.children] using hOlen
      have hfd : findDuplicateKey (.object ms) = some key := by
        simpa [nodeDuplicate, Value.IsObject] using hO
      obtain ⟨i, m, hrep, hlow, hm, hmk⟩ := findDuplicateKey_some ms hmslen key hfd
      refine ⟨pre, ms, post, i, m, hsplit, hprenodup, hrep, hlow, hm, ?_⟩
      rw [← h, hmk]
      rfl
    | array es => simp [nodeDuplicate, Value.IsObject] at hO
    | null => simp [nodeDuplicate, Value.IsObject] at hO
    | bool b => simp [nodeDuplicate, Value.IsObject] at hO
    | string s => simp [nodeDuplicate, Value.IsObject] at hO
    | number n => simp [nodeDuplicate, Value.IsObject] at hO

/-- Instance at the object with members x (holding a, a), y, y: the
tree fits, the call throws, and the exception is the one the theorem
describes. -/
theorem CheckKeyUniqueness_reports_first_duplicate_witness :
    docNestedAndOuter.FitsInt = true ∧
    CheckKeyUniqueness docNestedAndOuter = .threw (.ParseException "Duplicate key: y") ∧
    ∃ pre ms post i m, docNestedAndOuter.preorder = pre ++ Value.object ms :: post ∧
      (∀ v ∈ pre, v.memberNames.Nodup) ∧
      RepeatsEarlierName ms i ∧ (∀ i', i' < i → ¬ RepeatsEarlierName ms i') ∧
      ms[i]? = some m ∧
      Exception.ParseException "Duplicate key: y" = .ParseException ("Duplicate key: " ++ m.1) :=
  ⟨by decide, rfl,
    (CheckKeyUniqueness_reports_first_duplicate docNestedAndOuter (by decide) _ rfl).1⟩

/-! ## FromString, FromStream, EnsureValid -/

/-- C2, counterexample: the object with members x (holding a, a), y, y has an
object at top level and contains an object with two members named a, and
`FromString` on its text throws "Duplicate key: y", not "Duplicate key: a". -/
theorem FromString_reports_another_key :
    docNestedAndOuter.IsObject = true ∧
    HasTwoMembersNamed docNestedAndOuter "a" ∧
    FromString (parserYielding docNestedAndOuter docNestedAndOuterText) docNestedAndOuterText
      = .threw (.ParseException "Duplicate key: y") ∧
    FromString (parserYielding docNestedAndOuter docNestedAndOuterText) docNestedAndOuterText
      ≠ .threw (.ParseException ("Duplicate key: " ++ "a")) := by
  refine ⟨rfl, ?_, rfl, ?_⟩
  · exact ⟨[("a", .number (.integer 1)), ("a", .number (.integer 2))], 0, 1,
      ("a", .number (.integer 1)), ("a", .number (.integer 2)),
      List.mem_cons_of_mem _ (List.mem_cons_self _ _), by decide, rfl, rfl, rfl, rfl⟩
  · intro h
    have h2 : FromString (parserYielding docNestedAndOuter docNestedAndOuterText)
        docNestedAndOuterText = .threw (.ParseException "Duplicate key: y") := rfl
    rw [h2] at h
    simp only [Outcome.threw.injEq, Exception.ParseException.injEq] at h
    exact absurd h (by decide)

/-! ## The first duplicate in traversal order -/

theorem findDuplicateKey_of_lowest (ms : List (String × Value)) (hlen : ms.length < 2 ^ 31)
    (i : Nat) (m : String × Value) (hrep : RepeatsEarlierName ms i)
    (hlow : ∀ i', i' < i → ¬ RepeatsEarlierName ms i') (hm : ms[i]? = some m) :
    findDuplicateKey (.object ms) = some m.1 := by
  cases hf : findDuplicateKey (.object ms) with
  | none => exact absurd hrep ((findDuplicateKey_none_iff ms hlen).mp hf i)
  | some k =>
    obtain ⟨i2, m2, hrep2, hlow2, hm2, hk⟩ := findDuplicateKey_some ms hlen k hf
    have hi : i2 = i := by
      rcases Nat.lt_trichotomy i2 i with h | h | h
      · exact absurd hrep2 (hlow i2 h)
      · exact h
      · exact absurd hrep (hlow2 i h)
    rw [hi, hm] at hm2
    rw [← hk, ← Option.some.inj hm2]

theorem scanNodes_some_first (root : Value) (hfit : root.FitsInt = true) (key : String)
    (hs : scanNodes root.preorder = some key) : FirstDuplicate root key := by
  obtain ⟨pre, O, post, hsplit, hO, hpre⟩ := List.findSome?_eq_some_iff.mp hs
  have hOmem : O ∈ root.preorder := by rw [hsplit]; simp
  have hOlen := (Value.FitsInt_children O (FitsInt_of_mem_preorder root hfit O hOmem)).1
  have hprenodup : ∀ v ∈ pre, v.memberNames.Nodup := by
    intro v hv
    have hvmem : v ∈ root.preorder := by rw [hsplit]; simp [hv]
    have hlen := (Value.FitsInt_children v (FitsInt_of_mem_preorder root hfit v hvmem)).1
    exact (nodeDuplicate_none_iff v hlen).mp (hpre v hv)
  cases O with
  | object ms =>
    have hmslen : ms.length < 2 ^ 31 := by simpa [Value.children] using hOlen
    have hfd : findDuplicateKey (.object ms) = some key := by
      simpa [nodeDuplicate, Value.IsObject] using hO
    obtain ⟨i, m, hrep, hlow, hm, hmk⟩ := findDuplicateKey_some ms hmslen key hfd
    exact ⟨pre, ms, post, i, m, hsplit, hprenodup, hrep, hlow, hm, hmk⟩
  | array es => simp [nodeDuplicate, Value.IsObject] at hO
  | null => simp [nodeDuplicate, Value.IsObject] at hO
  | bool b => simp [nodeDuplicate, Value.IsObject] at hO
  | string s => simp [nodeDuplicate, Value.IsObject] at hO
  | number n => simp [nodeDuplicate, Value.IsObject] at hO

theorem scanNodes_of_first (root : Value) (hfit : root.FitsInt = true) (key : String)
    (h : FirstDuplicate root key) : scanNodes root.preorder = some key := by
  obtain ⟨pre, ms, post, i, m, hsplit, hpre, hrep, hlow, hm, hmk⟩ := h
  have hOmem : Value.object ms ∈ root.preorder := by rw [hsplit]; simp
  have hOlen := (Value.FitsInt_children _ (FitsInt_of_mem_preorder root hfit _ hOmem)).1
  have hmslen : ms.length < 2 ^ 31 := by simpa [Value.children] using hOlen
  have hprenone : scanNodes pre = none := by
    unfold scanNodes
    rw [List.findSome?_eq_none_iff]
    intro v hv
    have hvmem : v ∈ root.preorder := by rw [hsplit]; simp [hv]
    have hlen := (Value.FitsInt_children v (FitsInt_of_mem_preorder root hfit v hvmem)).1
    exact (nodeDuplicate_none_iff v hlen).mpr (hpre v hv)
  have hO : nodeDuplicate (Value.object ms) = some key := by
    simp only [nodeDuplicate, Value.IsObject, if_true]
    rw [findDuplicateKey_of_lowest ms hmslen i m hrep hlow hm, hmk]
  rw [hsplit, scanNodes_append, hprenone, scanNodes_cons, hO]
  rfl

theorem duplicateKeyMessage_injective (a b : String)
    (h : "Duplicate key: " ++ a = "Duplicate key: " ++ b) : a = b := by
  have hd := congrArg String.data h
  rw [String.data_append, String.data_append] at hd
  exact String.ext (List.append_cancel_left hd)

theorem FirstDuplicate_unique (root : Value) (hfit : root.FitsInt = true) (a b : String)
    (ha : FirstDuplicate root a) (hb : FirstDuplicate root b) : a = b := by
  have h1 := scanNodes_of_first root hfit a ha
  rw [scanNodes_of_first root hfit b hb] at h1
  exact (Option.some.inj h1).symm

/-- C2, amended: when the text is not empty, the parser accepts it with a
tree that has an array or object at top level, whose containers each have
fewer than 2^31 children, and that contains an object with two members named
`k`, the tree has exactly one first duplicate in the traversal order (the name
of the lowest-index member repeating an earlier name, in the first object in
pre-order that has two members with equal names), `FromString` throws the
`ParseException` "Duplicate key: " followed by that first duplicate, and the
exception names `k` if and only if `k` is the first duplicate. -/
theorem FromString_duplicate_key (rj : Rapidjson) (doc : String) (k : String)
    (hne : doc.isEmpty = false) (hok : (rj.Parse doc).1.IsError = false)
    (htop : (rj.Parse doc).2.IsArray = true ∨ (rj.Parse doc).2.IsObject = true)
    (hfit : (rj.Parse doc).2.FitsInt = true)
    (hdup : HasTwoMembersNamed (rj.Parse doc).2 k) :
    ∃ first, FirstDuplicate (rj.Parse doc).2 first ∧
      (∀ other, FirstDuplicate (rj.Parse doc).2 other → other = first) ∧
      FromString rj doc = .threw (.ParseException ("Duplicate key: " ++ first)) ∧
      (FromString rj doc = .threw (.ParseException ("Duplicate key: " ++ k)) ↔
        FirstDuplicate (rj.Parse doc).2 k) := by
  have hhas : HasDuplicateKey (rj.Parse doc).2 := by
    obtain ⟨ms, i, j, a, b, hmem, hij, ha, hb, hak, hbk⟩ := hdup
    exact ⟨ms, i, j, a, b, hmem, hij, ha, hb, hak.trans hbk.symm⟩
  have hnot := (duplicate_iff_not_NoDuplicateKeys _).mp hhas
  cases hs : scanNodes (rj.Parse doc).2.preorder with
  | none => exact absurd ((scanNodes_none_iff _ hfit).mp hs) hnot
  | some first =>
    have hfirst := scanNodes_some_first _ hfit first hs
    have hthrow : FromString rj doc =
        .threw (.ParseException ("Duplicate key: " ++ first)) := by
      rw [FromString_parsed rj doc hne hok, EnsureValid_container _ htop,
        CheckKeyUniqueness_eq _ hfit, hs]
      rfl
    refine ⟨first, hfirst, fun other ho => FirstDuplicate_unique _ hfit other first ho hfirst,
      hthrow, ?_, ?_⟩
    · intro h
      rw [hthrow] at h
      simp only [Outcome.threw.injEq, Exception.ParseException.injEq] at h
      rw [← duplicateKeyMessage_injective first k h]
      exact hfirst
    · intro hk
      rw [FirstDuplicate_unique _ hfit k first hk hfirst]
      exact hthrow

/-- Witness of C2 (amended) at the text of the object with members x (holding
a, a), y, y and `k` = y. -/
theorem FromString_duplicate_key_witness :
    docNestedAndOuterText.isEmpty = false ∧ docNestedAndOuter.FitsInt = true ∧
    HasTwoMembersNamed docNestedAndOuter "y" ∧
    ∃ first, FirstDuplicate docNestedAndOuter first ∧
      (∀ other, FirstDuplicate docNestedAndOuter other → other = first) ∧
      FromString (parserYielding docNestedAndOuter docNestedAndOuterText) docNestedAndOuterText =
        .threw (.ParseException ("Duplicate key: " ++ first)) ∧
      (FromString (parserYielding docNestedAndOuter docNestedAndOuterText) docNestedAndOuterText
          = .threw (.ParseException ("Duplicate key: " ++ "y")) ↔
        FirstDuplicate docNestedAndOuter "y") :=
  have hy : HasTwoMembersNamed docNestedAndOuter "y" :=
    ⟨_, 1, 2, ("y", .number (.integer 1)), ("y", .number (.integer 2)),
      List.mem_cons_self _ _, by decide, rfl, rfl, rfl, rfl⟩
  ⟨by decide, by decide, hy,
    FromString_duplicate_key (parserYielding docNestedAndOuter docNestedAndOuterText)
      docNestedAndOuterText "y" (by decide) rfl (Or.inr rfl) (by decide) hy⟩

/-- For a parsed tree `t` whose containers each have fewer than 2^31
children, a root returned by `EnsureValid t` is an array or an object, and
every object node of it, at every depth, has pairwise distinct member names;
so is every value `FromString` or `FromStream` returns for a text or stream
the parser turns into `t`. -/
theorem EnsureValid_establishes_invariant (t : Value) (hfit : t.FitsInt = true) :
    (∀ r, EnsureValid t = .returned r →
      (r.root.IsArray = true ∨ r.root.IsObject = true) ∧ NoDuplicateKeys r.root) ∧
    (∀ (rj : Rapidjson) (doc : String) (v : Value), (rj.Parse doc).2 = t →
      FromString rj doc = .returned v →
        (v.IsArray = true ∨ v.IsObject = true) ∧ NoDuplicateKeys v) ∧
    (∀ (rj : Rapidjson) (is : IStream) (v : Value), (rj.ParseStream is).2 = t →
      FromStream rj is = .returned v →
        (v.IsArray = true ∨ v.IsObject = true) ∧ NoDuplicateKeys v) := by
  have key : ∀ r, EnsureValid t = .returned r →
      (r.root.IsArray = true ∨ r.root.IsObject = true) ∧ NoDuplicateKeys r.root := by
    intro r h
    obtain ⟨htop, hnodup, hr⟩ := EnsureValid_returned t hfit r h
    rw [hr]
    exact ⟨htop, hnodup⟩
  refine ⟨key, ?_, ?_⟩
  · intro rj doc v ht h
    obtain ⟨r, hr, hv⟩ := FromString_returned rj doc v h
    rw [ht] at hr
    rw [← hv]
    exact key r hr
  · intro rj is v ht h
    obtain ⟨r, hr, hv⟩ := FromStream_returned rj is v h
    rw [ht] at hr
    rw [← hv]
    exact key r hr

/-- Instance at the array `docPlain`: `EnsureValid` returns it, and the
root is an array without duplicate keys. -/
theorem EnsureValid_establishes_invariant_witness :
    docPlain.FitsInt = true ∧
    EnsureValid docPlain = .returned { root := docPlain, json := .null } ∧
    (docPlain.IsArray = true ∨ docPlain.IsObject = true) ∧ NoDuplicateKeys docPlain :=
  ⟨by decide, rfl,
    (EnsureValid_establishes_invariant docPlain (by decide)).1
      { root := docPlain, json := .null } rfl⟩

/-- C5: for a tree whose top level is neither an array nor an object,
`EnsureValid` throws the shape error, whatever the validator of line 116
would do (it is not called); so do `FromString` and `FromStream` when the
parser accepts the input with that tree. -/
theorem EnsureValid_rejects_scalar (t : Value) (hA : t.IsArray = false)
    (hO : t.IsObject = false) :
    EnsureValid t = .threw (.ParseException
      "A valid JSON document must be either an array or an object value.") ∧
    (∀ validator : Value → Outcome Unit, EnsureValidWith validator t =
      .threw (.ParseException
        "A valid JSON document must be either an array or an object value.")) ∧
    (∀ (rj : Rapidjson) (doc : String), doc.isEmpty = false →
      (rj.Parse doc).1.IsError = false → (rj.Parse doc).2 = t →
      FromString rj doc = .threw (.ParseException
        "A valid JSON document must be either an array or an object value.")) ∧
    (∀ (rj : Rapidjson) (is : IStream), is.fail = false →
      (rj.ParseStream is).1.IsError = false → (rj.ParseStream is).2 = t →
      FromStream rj is = .threw (.ParseException
        "A valid JSON document must be either an array or an object value.")) := by
  have key : ∀ validator : Value → Outcome Unit, EnsureValidWith validator t =
      .threw (.ParseException
        "A valid JSON document must be either an array or an object value.") :=
    fun validator => EnsureValidWith_scalar validator t hA hO
  refine ⟨key _, key, ?_, ?_⟩
  · intro rj doc hne hok ht
    rw [FromString_parsed rj doc hne hok, ht, EnsureValid, key]
  · intro rj is hgood hok ht
    rw [FromStream_parsed rj is hgood hok, ht, EnsureValid, key]

/-- Witness of C5 at the top-level string "hello". -/
theorem EnsureValid_rejects_scalar_witness :
    EnsureValid (.string "hello") = .threw (.ParseException
      "A valid JSON document must be either an array or an object value.") :=
  (EnsureValid_rejects_scalar (.string "hello") rfl rfl).1

/-- C6: `FromString` of the empty text throws the `ParseException` "JSON
document is empty", whatever the parser and the other collaborators do. -/
theorem FromString_empty_text (rj : Rapidjson) :
    FromString rj "" = .threw (.ParseException "JSON document is empty") := rfl

/-- C7, counterexample: on a valid stream without bytes `FromStream` hands
the stream to the parser.  With a parser that reports the empty document as
rapidjson does, it throws the parse error, which is not the exception
`FromString` throws for the empty text; with a parser that accepts the
stream, it returns the parser's tree. -/
theorem FromStream_empty_is_parsed :
    FromStream parserRejectingEmpty { fail := false, bytes := "" } =
      .threw (.ParseException "JSON parse error: The document is empty. (at offset 0)") ∧
    FromString parserRejectingEmpty "" =
      .threw (.ParseException "JSON document is empty") ∧
    FromStream parserRejectingEmpty { fail := false, bytes := "" } ≠
      FromString parserRejectingEmpty "" ∧
    FromStream (parserYielding (.array []) "[]") { fail := false, bytes := "" } =
      .returned (.array []) := by
  refine ⟨rfl, rfl, ?_, rfl⟩
  intro h
  have h1 : FromStream parserRejectingEmpty { fail := false, bytes := "" } =
      .threw (.ParseException "JSON parse error: The document is empty. (at offset 0)") := rfl
  have h2 : FromString parserRejectingEmpty "" =
      .threw (.ParseException "JSON document is empty") := rfl
  rw [h1, h2] at h
  simp only [Outcome.threw.injEq, Exception.ParseException.injEq] at h
  exact absurd h (by decide)

/-- C7, amended: on a valid stream that yields no bytes `FromStream` hands
the stream to the parser and never throws the exception "JSON document is
empty" of `FromString`: when the parser reports an error it throws the
`ParseException` "JSON parse error: " with the parser's message and offset,
and when the parser accepts the stream the call ends as `EnsureValid` does on
the parser's tree. -/
theorem FromStream_empty_stream (rj : Rapidjson) (is : IStream) (hgood : is.fail = false)
    (hempty : is.bytes = "") :
    is.bytes.isEmpty = true ∧
    FromStream rj is ≠ .threw (.ParseException "JSON document is empty") ∧
    ((rj.ParseStream is).1.IsError = true →
      FromStream rj is = .threw (.ParseException
        ("JSON parse error: " ++ rj.GetParseError_En (rj.ParseStream is).1.Code ++
          " (at offset " ++ toString (rj.ParseStream is).1.Offset ++ ")"))) ∧
    ((rj.ParseStream is).1.IsError = false →
      FromStream rj is =
        match EnsureValid (rj.ParseStream is).2 with
        | .returned r => .returned r.root
        | .threw e => .threw e
        | .undefined => .undefined) := by
  have herr : (rj.ParseStream is).1.IsError = true →
      FromStream rj is = .threw (.ParseException (parseErrorMessage rj (rj.ParseStream is).1)) := by
    intro h
    simp [FromStream, hgood, h]
  refine ⟨by rw [hempty]; rfl, ?_, herr, FromStream_parsed rj is hgood⟩
  intro h
  cases hok : (rj.ParseStream is).1.IsError with
  | true =>
    rw [herr hok] at h
    simp only [Outcome.threw.injEq, Exception.ParseException.injEq] at h
    exact parseErrorMessage_ne_empty_input rj _ h
  | false =>
    rw [FromStream_parsed rj is hgood hok] at h
    cases he : EnsureValid (rj.ParseStream is).2 with
    | returned r => rw [he] at h; cases h
    | undefined => rw [he] at h; cases h
    | threw e =>
      rw [he] at h
      simp only [Outcome.threw.injEq] at h
      rw [h] at he
      exact EnsureValid_never_empty_input _ he

/-- Witness of C7 (amended) with the parser that reports the empty document
as rapidjson does. -/
theorem FromStream_empty_stream_witness :
    FromStream parserRejectingEmpty { fail := false, bytes := "" } ≠
      .threw (.ParseException "JSON document is empty") :=
  (FromStream_empty_stream parserRejectingEmpty { fail := false, bytes := "" } rfl rfl).2.1

/-- For a tree `t` with an array or object at top level, containers of
fewer than 2^31 children and no duplicate keys, `EnsureValid t` returns, the
new root is `t` itself (structure, member order, names and scalar values),
and the document it was given is left a Null node. -/
theorem EnsureValid_moves_tree (t : Value) (hfit : t.FitsInt = true)
    (htop : t.IsArray = true ∨ t.IsObject = true) (hnodup : NoDuplicateKeys t) :
    EnsureValid t = .returned { root := t, json := .null } :=
  EnsureValid_valid t hfit htop hnodup

/-- Instance at the array `docPlain`. -/
theorem EnsureValid_moves_tree_witness :
    docPlain.FitsInt = true ∧ docPlain.IsArray = true ∧ NoDuplicateKeys docPlain ∧
    EnsureValid docPlain = .returned { root := docPlain, json := .null } :=
  ⟨by decide, rfl, by decide,
    EnsureValid_moves_tree docPlain (by decide) (Or.inl rfl) (by decide)⟩

/-! ## GetExtendedType -/

/-- C10: `GetExtendedType` of a node holding an integer above the maximum
signed 64 bit integer and at most the maximum unsigned 64 bit integer is
`uintValue`, not `intValue` and not `realValue`. -/
theorem GetExtendedType_unsigned_only (i : Int) (hlo : 2 ^ 63 - 1 < i)
    (hhi : i ≤ 2 ^ 64 - 1) :
    GetExtendedType (.number (.integer i)) = .uintValue ∧
    GetExtendedType (.number (.integer i)) ≠ .intValue ∧
    GetExtendedType (.number (.integer i)) ≠ .realValue := by
  have h1 : ¬ (-((2 : Int) ^ 63) ≤ i ∧ i ≤ 2 ^ 63 - 1) := by
    intro h
    exact absurd h.2 (not_le.mpr hlo)
  have h0 : (0 : Int) ≤ i := by
    have : (0 : Int) ≤ 2 ^ 63 - 1 := by norm_num
    exact le_of_lt (lt_of_le_of_lt this hlo)
  have h2 : 0 ≤ i ∧ i ≤ 2 ^ 64 - 1 := ⟨h0, hhi⟩
  have hu : GetExtendedType (.number (.integer i)) = .uintValue := by
    simp only [GetExtendedType, if_neg h1, if_pos h2]
  rw [hu]
  exact ⟨rfl, by decide, by decide⟩

/-- Witness of C10 at 2^63, the least integer above the signed range. -/
theorem GetExtendedType_unsigned_only_witness :
    GetExtendedType (.number (.integer (2 ^ 63))) = .uintValue :=
  (GetExtendedType_unsigned_only (2 ^ 63) (by norm_num) (by norm_num)).1


/-! ## States and stacks of the walk -/

theorem walkStates_succ (fuel : Nat) (stack : List TreeIterFrame) (value : Value) :
    walkStates (fuel + 1) stack value =
      (stack, value) ::
        match loopBody stack value with
        | .next stack' value' => walkStates fuel stack' value'
        | .done _ => [] := rfl

theorem walkStacks_succ (fuel : Nat) (stack : List TreeIterFrame) (value : Value) :
    walkStacks (fuel + 1) stack value =
      passStacks stack value ++
        match loopBody stack value with
        | .next stack' value' => walkStacks fuel stack' value'
        | .done _ => [] := rfl

/-- A property of the state at the top of a pass that every pass hands on
holds at the top of every pass. -/
theorem walkStates_invariant (P : List TreeIterFrame → Value → Prop)
    (step : ∀ s v s' v', P s v → loopBody s v = .next s' v' → P s' v') :
    ∀ (fuel : Nat) (s : List TreeIterFrame) (v : Value), P s v →
      ∀ st ∈ walkStates fuel s v, P st.1 st.2 := by
  intro fuel
  induction fuel with
  | zero => intro s v _ st hst; simp [walkStates] at hst
  | succ fuel ih =>
    intro s v hP st hst
    rw [walkStates_succ, List.mem_cons] at hst
    rcases hst with rfl | hst
    · exact hP
    · cases hb : loopBody s v with
      | next s' v' =>
        rw [hb] at hst
        exact ih s' v' (step s v s' v' hP hb) st hst
      | done r => rw [hb] at hst; simp at hst

/-- A property of the stack that every pass started in a state with `P`
keeps at each of its points holds at every point of the walk. -/
theorem walkStacks_invariant (P : List TreeIterFrame → Value → Prop)
    (Q : List TreeIterFrame → Prop)
    (pass : ∀ s v, P s v → ∀ stk ∈ passStacks s v, Q stk)
    (step : ∀ s v s' v', P s v → loopBody s v = .next s' v' → P s' v') :
    ∀ (fuel : Nat) (s : List TreeIterFrame) (v : Value), P s v →
      ∀ stk ∈ walkStacks fuel s v, Q stk := by
  intro fuel
  induction fuel with
  | zero => intro s v _ stk hstk; simp [walkStacks] at hstk
  | succ fuel ih =>
    intro s v hP stk hstk
    rw [walkStacks_succ, List.mem_append] at hstk
    rcases hstk with hstk | hstk
    · exact pass s v hP stk hstk
    · cases hb : loopBody s v with
      | next s' v' =>
        rw [hb] at hstk
        exact ih s' v' (step s v s' v' hP hb) stk hstk
      | done r => rw [hb] at hstk; simp at hstk

/-! ## What one pass does -/

theorem selectCurrent_next (stk s' : List TreeIterFrame) (v' : Value)
    (h : selectCurrent stk = .next s' v') :
    s' = stk ∧ ∃ f below, stk = f :: below ∧ f.CurrentValue = some v' := by
  cases stk with
  | nil => simp [selectCurrent] at h
  | cons f below =>
    cases hc : f.CurrentValue with
    | none => simp [selectCurrent, hc] at h
    | some w =>
      simp only [selectCurrent, hc, Iteration.next.injEq] at h
      exact ⟨h.1.symm, f, below, rfl, by rw [hc, h.2]⟩

theorem unwind_resume : ∀ (stk s' : List TreeIterFrame), unwind stk = .resume s' →
    ∃ dropped, stk = dropped ++ s' ∧
      ∃ f below, s' = f :: below ∧ f.HasMoreElements = true := by
  intro stk
  induction stk with
  | nil => intro s' h; simp [unwind] at h
  | cons top rest ih =>
    intro s' h
    rw [unwind] at h
    by_cases hm : top.HasMoreElements = true
    · rw [if_pos hm] at h
      simp only [Unwound.resume.injEq] at h
      exact ⟨[], by simp [h], top, rest, h.symm, hm⟩
    · rw [if_neg hm] at h
      by_cases he : rest.isEmpty = true
      · rw [if_pos he] at h; cases h
      · rw [if_neg he] at h
        obtain ⟨dropped, hd, hrest⟩ := ih s' h
        exact ⟨top :: dropped, by simp [hd], hrest⟩

theorem CurrentValue_some (f : TreeIterFrame) (v : Value) (h : f.CurrentValue = some v) :
    f.current_ < f.end_ ∧ ∃ p, f.root_ = some p ∧
      (p.children ≠ [] → 0 ≤ f.current_ ∧ p.children[f.current_.toNat]? = some v) := by
  unfold TreeIterFrame.CurrentValue at h
  by_cases hlt : f.current_ < f.end_
  · rw [if_pos hlt] at h
    refine ⟨hlt, ?_⟩
    cases hr : f.root_ with
    | none => rw [hr] at h; cases h
    | some p =>
      rw [hr] at h
      refine ⟨p, rfl, ?_⟩
      intro hne
      cases p with
      | object ms =>
        simp only [Value.IsArray, Value.IsObject, Value.members] at h
        by_cases hneg : f.current_ < 0
        · simp [hneg] at h
        · simp only [if_neg hneg] at h
          exact ⟨not_lt.mp hneg, by simpa [Value.children, List.getElem?_map] using h⟩
      | array es =>
        simp only [Value.IsArray, Value.elems] at h
        by_cases hneg : f.current_ < 0
        · simp [hneg] at h
        · simp only [if_neg hneg] at h
          exact ⟨not_lt.mp hneg, by simpa [Value.children] using h⟩
      | null => exact absurd rfl hne
      | bool b => exact absurd rfl hne
      | string s => exact absurd rfl hne
      | number n => exact absurd rfl hne
  · rw [if_neg hlt] at h; cases h

/-- The two ways a pass leads to a next pass: it pushes the frame of
`value`, which has children, or `value` has none and it unwinds to a frame
with more elements; either way the new `value` is the current value of the
new back of the stack. -/
theorem loopBody_next (stack s' : List TreeIterFrame) (v v' : Value)
    (h : loopBody stack v = .next s' v') :
    ∃ top rest, stack = top :: rest ∧
      ((v.children ≠ [] ∧ s' = TreeIterFrame.ofValue v :: top.Advance :: rest) ∨
        (v.children = [] ∧ unwind (top.Advance :: rest) = .resume s')) ∧
      ∃ f below, s' = f :: below ∧ f.CurrentValue = some v' := by
  cases stack with
  | nil => simp [loopBody] at h
  | cons top rest =>
    refine ⟨top, rest, rfl, ?_⟩
    cases hnd : nodeDuplicate v with
    | some key => rw [loopBody_throw top rest v key hnd] at h; cases h
    | none =>
      by_cases hc : v.children = []
      · rw [loopBody_leaf top rest v hnd hc] at h
        unfold unwindAndSelect at h
        cases hu : unwind (top.Advance :: rest) with
        | resume stk =>
          rw [hu] at h
          obtain ⟨hs, hcur⟩ := selectCurrent_next stk s' v' h
          subst hs
          exact ⟨Or.inr ⟨hc, rfl⟩, hcur⟩
        | finished => rw [hu] at h; cases h
        | undefined => rw [hu] at h; cases h
      · unfold nodeDuplicate at hnd
        have hd : loopBody (top :: rest) v =
            selectCurrent (TreeIterFrame.ofValue v :: top.Advance :: rest) := by
          simp [loopBody, hnd, descend_condition, hc]
        rw [hd] at h
        obtain ⟨hs, hcur⟩ := selectCurrent_next _ s' v' h
        subst hs
        exact ⟨Or.inl ⟨hc, rfl⟩, hcur⟩


/-! ## Frames of containers -/

theorem StackOfContainers_step (s s' : List TreeIterFrame) (v v' : Value)
    (hs : StackOfContainers s) (h : loopBody s v = .next s' v') : StackOfContainers s' := by
  obtain ⟨top, rest, rfl, hcase, _⟩ := loopBody_next _ s' v v' h
  have hadv : StackOfContainers (top.Advance :: rest) := by
    intro f hf
    rw [List.mem_cons] at hf
    rcases hf with rfl | hf
    · exact hs top (List.mem_cons_self _ _)
    · exact hs f (List.mem_cons_of_mem _ hf)
  rcases hcase with ⟨hne, rfl⟩ | ⟨_, hu⟩
  · intro f hf
    rw [List.mem_cons] at hf
    rcases hf with rfl | hf
    · exact Or.inr ⟨v, rfl, hne⟩
    · exact hadv f hf
  · obtain ⟨dropped, hd, _⟩ := unwind_resume _ s' hu
    intro f hf
    exact hadv f (by rw [hd]; exact List.mem_append_right _ hf)

theorem StackOfContainers_initial : StackOfContainers [TreeIterFrame.empty] := by
  intro f hf
  rw [List.mem_singleton] at hf
  exact Or.inl (by rw [hf]; rfl)

/-! ## The measure of the walk -/

theorem Value.nodeCount_pos (v : Value) : 0 < v.nodeCount := by
  rw [Value.nodeCount_eq]; omega

theorem nodeCountElems_drop : ∀ (l : List Value) (n : Nat) (x : Value), l[n]? = some x →
    Value.nodeCountElems (l.drop n) = x.nodeCount + Value.nodeCountElems (l.drop (n + 1)) := by
  intro l
  induction l with
  | nil => intro n x h; simp at h
  | cons a l ih =>
    intro n x h
    cases n with
    | zero =>
      simp only [List.getElem?_cons_zero, Option.some.injEq] at h
      subst h
      simp [Value.nodeCountElems]
    | succ n =>
      simp only [List.getElem?_cons_succ] at h
      simpa using ih n x h

theorem remaining_of_CurrentValue (f : TreeIterFrame) (v : Value)
    (hf : f.root_ = none ∨ ∃ p : Value, f.root_ = some p ∧ p.children ≠ [])
    (h : f.CurrentValue = some v) : v.nodeCount + f.Advance.remaining = f.remaining := by
  obtain ⟨_, p, hp, hidx⟩ := CurrentValue_some f v h
  have hne : p.children ≠ [] := by
    rcases hf with hnone | ⟨q, hq, hqne⟩
    · rw [hnone] at hp; cases hp
    · rw [hp] at hq
      cases hq
      exact hqne
  obtain ⟨h0, hget⟩ := hidx hne
  have hnat : (f.current_ + 1).toNat = f.current_.toNat + 1 := by omega
  simp only [TreeIterFrame.remaining, TreeIterFrame.Advance, hp, hnat]
  rw [nodeCountElems_drop p.children f.current_.toNat v hget]

theorem remainingBelow_cons (f : TreeIterFrame) (stk : List TreeIterFrame) :
    remainingBelow (f :: stk) = f.remaining + remainingBelow stk := by
  simp [remainingBelow]

theorem remainingBelow_append (a b : List TreeIterFrame) :
    remainingBelow (a ++ b) = remainingBelow a + remainingBelow b := by
  simp [remainingBelow]

/-- Every pass that leads to a next pass lowers the measure. -/
theorem walkMeasure_step (s s' : List TreeIterFrame) (v v' : Value)
    (hs : StackOfContainers s) (h : loopBody s v = .next s' v') :
    walkMeasure s' v' < walkMeasure s v := by
  have hs' := StackOfContainers_step s s' v v' hs h
  obtain ⟨top, rest, rfl, hcase, f, below, rfl, hcur⟩ := loopBody_next _ s' v v' h
  have hrem := remaining_of_CurrentValue f v' (hs' f (List.mem_cons_self _ _)) hcur
  have hnew : walkMeasure (f :: below) v' = remainingBelow (f :: below) := by
    simp only [walkMeasure, remainingBelow_cons]
    omega
  have hold : walkMeasure (top :: rest) v = v.nodeCount + remainingBelow (top.Advance :: rest) :=
    rfl
  rw [hnew, hold]
  rcases hcase with ⟨_, hpush⟩ | ⟨_, hu⟩
  · rw [hpush, remainingBelow_cons]
    have hfr : (TreeIterFrame.ofValue v).remaining = Value.nodeCountElems v.children := by
      simp [TreeIterFrame.remaining, TreeIterFrame.ofValue]
    rw [hfr, Value.nodeCount_eq]
    omega
  · obtain ⟨dropped, hd, _⟩ := unwind_resume _ _ hu
    rw [hd, remainingBelow_append]
    have := Value.nodeCount_pos v
    omega

theorem walkMeasure_initial (root : Value) :
    walkMeasure [TreeIterFrame.empty] root = root.nodeCount := by
  simp [walkMeasure, remainingBelow, TreeIterFrame.remaining, TreeIterFrame.Advance,
    TreeIterFrame.empty]

/-- The measure falls from each pass to the next. -/
theorem walkStates_measure : ∀ (fuel : Nat) (s : List TreeIterFrame) (v : Value),
    StackOfContainers s →
      List.Chain' (fun a b => walkMeasure b.1 b.2 < walkMeasure a.1 a.2)
        (walkStates fuel s v) := by
  intro fuel
  induction fuel with
  | zero => intro s v _; simp [walkStates]
  | succ fuel ih =>
    intro s v hs
    rw [walkStates_succ, List.chain'_cons']
    cases hb : loopBody s v with
    | done r => simp
    | next s' v' =>
      simp only
      refine ⟨?_, ih s' v' (StackOfContainers_step s s' v v' hs hb)⟩
      intro y hy
      cases fuel with
      | zero => simp [walkStates] at hy
      | succ fuel =>
        rw [walkStates_succ] at hy
        simp only [List.head?_cons, Option.mem_def, Option.some.injEq] at hy
        rw [← hy]
        exact walkMeasure_step s s' v v' hs hb

/-- The walk ends within as many passes as its measure. -/
theorem walk_terminates : ∀ (fuel : Nat) (s : List TreeIterFrame) (v : Value),
    StackOfContainers s → walkMeasure s v ≤ fuel → ∃ r, walk fuel s v = some r := by
  intro fuel
  induction fuel with
  | zero =>
    intro s v _ hm
    have hpos : 0 < walkMeasure s v :=
      Nat.lt_of_lt_of_le (Value.nodeCount_pos v) (Nat.le_add_right _ _)
    omega
  | succ fuel ih =>
    intro s v hs hm
    rw [walk_succ]
    cases hb : loopBody s v with
    | done r => exact ⟨r, rfl⟩
    | next s' v' =>
      have hlt := walkMeasure_step s s' v v' hs hb
      exact ih s' v' (StackOfContainers_step s s' v v' hs hb) (by omega)

theorem walk_fuel_mono : ∀ (fuel : Nat) (s : List TreeIterFrame) (v : Value)
    (r : Outcome Unit), walk fuel s v = some r →
      ∀ extra : Nat, walk (fuel + extra) s v = some r := by
  intro fuel
  induction fuel with
  | zero => intro s v r h; simp [walk] at h
  | succ fuel ih =>
    intro s v r h extra
    have he : fuel + 1 + extra = (fuel + extra) + 1 := by omega
    rw [he, walk_succ]
    rw [walk_succ] at h
    cases hb : loopBody s v with
    | done r' => rw [hb] at h; exact h
    | next s' v' =>
      rw [hb] at h
      exact ih s' v' r h extra

/-- One pass for every node of the tree is enough for the call to end, on
every tree. -/
theorem CheckKeyUniquenessFuel_enough (root : Value) (fuel : Nat)
    (hfuel : root.nodeCount ≤ fuel) :
    CheckKeyUniquenessFuel fuel root = some (CheckKeyUniqueness root) := by
  obtain ⟨r, hr⟩ := walk_terminates root.nodeCount [TreeIterFrame.empty] root
    StackOfContainers_initial (by rw [walkMeasure_initial])
  obtain ⟨extra, rfl⟩ := Nat.exists_eq_add_of_le hfuel
  have hc : CheckKeyUniqueness root = r := by
    unfold CheckKeyUniqueness CheckKeyUniquenessFuel
    rw [hr]
  rw [hc]
  exact walk_fuel_mono _ _ _ r hr extra

/-! ## The unwind loop -/

theorem unwindPops_lengths : ∀ stack : List TreeIterFrame,
    List.Chain' (fun a b : List TreeIterFrame => b.length < a.length)
      (stack :: unwindPops stack) := by
  intro stack
  induction stack with
  | nil => simp [unwindPops]
  | cons top rest ih =>
    rw [unwindPops]
    by_cases hm : top.HasMoreElements = true
    · simp [hm]
    · rw [if_neg hm, List.chain'_cons]
      refine ⟨by simp, ?_⟩
      by_cases he : rest.isEmpty = true
      · simp [he]
      · rw [if_neg he]
        exact ih

theorem unwindPops_suffix : ∀ (stack stk : List TreeIterFrame), stk ∈ unwindPops stack →
    ∃ dropped, stack = dropped ++ stk := by
  intro stack
  induction stack with
  | nil => intro stk h; simp [unwindPops] at h
  | cons top rest ih =>
    intro stk h
    rw [unwindPops] at h
    by_cases hm : top.HasMoreElements = true
    · simp [hm] at h
    · rw [if_neg hm, List.mem_cons] at h
      rcases h with rfl | h
      · exact ⟨[top], rfl⟩
      · by_cases he : rest.isEmpty = true
        · simp [he] at h
        · rw [if_neg he] at h
          obtain ⟨dropped, hd⟩ := ih stk h
          exact ⟨top :: dropped, by simp [hd]⟩


/-! ## Frames on trees that fit -/

theorem GoodFrame_Advance_root (f : TreeIterFrame) : f.Advance.root_ = f.root_ := rfl

theorem GoodFrame_ofValue (v : Value) (hfit : v.FitsInt = true) (hne : v.children ≠ []) :
    GoodFrame (TreeIterFrame.ofValue v) := by
  have hlen := (Value.FitsInt_children v hfit).1
  rw [ofValue_eq_childFrame v hne hlen]
  exact Or.inr ⟨v, 0, rfl, hfit, hne, Nat.zero_le _⟩

theorem LoopTop_initial (root : Value) (hfit : root.FitsInt = true) :
    LoopTop [TreeIterFrame.empty] root := by
  refine ⟨hfit, TreeIterFrame.empty, [], rfl, ?_, ?_, ?_⟩
  · intro f hf; simp at hf
  · exact Or.inl ⟨rfl, rfl, Or.inl rfl⟩
  · exact Or.inl ⟨rfl, rfl, Or.inr rfl⟩

theorem StackGood_advanced (top : TreeIterFrame) (rest : List TreeIterFrame)
    (htop : GoodFrame top.Advance) (hrest : StackGood rest) :
    StackGood (top.Advance :: rest) := by
  intro f hf
  rw [List.mem_cons] at hf
  rcases hf with rfl | hf
  · exact htop
  · exact hrest f hf

theorem StackGood_suffix (dropped stk : List TreeIterFrame)
    (h : StackGood (dropped ++ stk)) : StackGood stk :=
  fun f hf => h f (List.mem_append_right _ hf)

/-- At every point of a pass started in a `LoopTop` state the frames are
good. -/
theorem passStacks_good (s : List TreeIterFrame) (v : Value) (h : LoopTop s v) :
    ∀ stk ∈ passStacks s v, StackGood stk := by
  obtain ⟨hfit, top, rest, rfl, hrest, _, hadv⟩ := h
  have hgood := StackGood_advanced top rest hadv hrest
  intro stk hstk
  simp only [passStacks, List.mem_cons] at hstk
  rcases hstk with rfl | hstk
  · exact hgood
  · cases hd : (if v.IsObject = true then findDuplicateKey v else none) with
    | some key => rw [hd] at hstk; simp at hstk
    | none =>
      rw [hd] at hstk
      simp only [descend_condition] at hstk
      by_cases hc : v.children = []
      · simp only [hc, List.isEmpty_nil, Bool.not_true, Bool.false_eq_true, if_false] at hstk
        obtain ⟨dropped, hdrop⟩ := unwindPops_suffix _ stk hstk
        exact StackGood_suffix dropped stk (hdrop ▸ hgood)
      · have hne : (!v.children.isEmpty) = true := by
          cases hcc : v.children with
          | nil => exact absurd hcc hc
          | cons a l => rfl
        simp only [hne, if_true, List.mem_singleton] at hstk
        subst hstk
        intro f hf
        rw [List.mem_cons] at hf
        rcases hf with rfl | hf
        · exact GoodFrame_ofValue v hfit hc
        · exact hgood f hf

theorem GoodFrame_of_CurrentValue (f : TreeIterFrame) (v : Value) (hf : GoodFrame f)
    (h : f.CurrentValue = some v) :
    v.FitsInt = true ∧ GoodFrame f.Advance ∧
      ∃ (p : Value) (i : Nat), f = childFrame p i ∧ p.children[i]? = some v := by
  obtain ⟨hlt, q, hq, hidx⟩ := CurrentValue_some f v h
  rcases hf with ⟨hnone, _⟩ | ⟨p, i, rfl, hpfit, hpne, hi⟩
  · rw [hnone] at hq; cases hq
  · have hqp : q = p := by
      simp only [childFrame, Option.some.injEq] at hq
      exact hq.symm
    subst hqp
    obtain ⟨_, hget⟩ := hidx hpne
    have hget' : q.children[i]? = some v := by simpa [childFrame] using hget
    have hilt : i < q.children.length := (List.getElem?_eq_some_iff.mp hget').1
    refine ⟨?_, ?_, q, i, rfl, hget'⟩
    · exact (Value.FitsInt_children q hpfit).2 v (List.mem_iff_getElem?.mpr ⟨i, hget'⟩)
    · rw [childFrame_Advance]
      exact Or.inr ⟨q, i + 1, rfl, hpfit, hpne, hilt⟩

/-- A pass started in a `LoopTop` state and leading to a next pass leaves a
`LoopTop` state. -/
theorem LoopTop_step (s s' : List TreeIterFrame) (v v' : Value) (h : LoopTop s v)
    (hb : loopBody s v = .next s' v') : LoopTop s' v' := by
  have hpass := passStacks_good s v h
  obtain ⟨hfit, top0, rest0, hs0, hrest, _, hadv⟩ := h
  obtain ⟨top, rest, hs, hcase, f, below, hs', hcur⟩ := loopBody_next s s' v v' hb
  rw [hs0] at hs
  simp only [List.cons.injEq] at hs
  obtain ⟨rfl, rfl⟩ := hs
  have hgood := StackGood_advanced top0 rest0 hadv hrest
  have hs'good : StackGood s' := by
    rcases hcase with ⟨hne, hpush⟩ | ⟨_, hu⟩
    · rw [hpush]
      intro g hg
      rw [List.mem_cons] at hg
      rcases hg with rfl | hg
      · exact GoodFrame_ofValue v hfit hne
      · exact hgood g hg
    · obtain ⟨dropped, hd, _⟩ := unwind_resume _ s' hu
      exact StackGood_suffix dropped s' (hd ▸ hgood)
  rw [hs'] at hs'good
  have hfgood := hs'good f (List.mem_cons_self _ _)
  obtain ⟨hvfit, hfadv, _⟩ := GoodFrame_of_CurrentValue f v' hfgood hcur
  exact ⟨hvfit, f, below, hs', fun g hg => hs'good g (List.mem_cons_of_mem _ hg), hfgood, hfadv⟩

theorem unwindAndSelect_defined : ∀ stk : List TreeIterFrame, stk ≠ [] → StackGood stk →
    unwindAndSelect stk ≠ .done .undefined := by
  intro stk
  induction stk with
  | nil => intro h; exact absurd rfl h
  | cons top rest ih =>
    intro _ hgood
    by_cases hm : top.HasMoreElements = true
    · rcases hgood top (List.mem_cons_self _ _) with ⟨_, hend, hcur⟩ | ⟨p, i, rfl, _, _, _⟩
      · simp only [TreeIterFrame.HasMoreElements, decide_eq_true_eq] at hm
        omega
      · rw [childFrame_HasMoreElements, decide_eq_true_eq] at hm
        have hget : p.children[i]? = some p.children[i] := List.getElem?_eq_getElem hm
        rw [unwindAndSelect_more p i _ rest hget]
        simp
    · cases rest with
      | nil => simp [unwindAndSelect, unwind, hm]
      | cons g below =>
        have heq : unwindAndSelect (top :: g :: below) = unwindAndSelect (g :: below) := by
          simp [unwindAndSelect, unwind, hm]
        rw [heq]
        exact ih (by simp) (fun f hf => hgood f (List.mem_cons_of_mem _ hf))

/-- A pass started in a `LoopTop` state meets no undefined behaviour. -/
theorem LoopTop_defined (s : List TreeIterFrame) (v : Value) (h : LoopTop s v) :
    loopBody s v ≠ .done .undefined := by
  obtain ⟨hfit, top, rest, rfl, hrest, _, hadv⟩ := h
  have hgood := StackGood_advanced top rest hadv hrest
  cases hnd : nodeDuplicate v with
  | some key => rw [loopBody_throw top rest v key hnd]; simp
  | none =>
    by_cases hc : v.children = []
    · rw [loopBody_leaf top rest v hnd hc]
      exact unwindAndSelect_defined _ (by simp) hgood
    · have hlen := (Value.FitsInt_children v hfit).1
      rw [loopBody_descend top rest v hnd hc hlen]
      obtain ⟨c, cs, hcs⟩ := List.exists_cons_of_ne_nil hc
      have h0 : v.children[0]? = some c := by simp [hcs]
      rw [unwindAndSelect_more v 0 c _ h0]
      simp

theorem walk_defined : ∀ (fuel : Nat) (s : List TreeIterFrame) (v : Value), LoopTop s v →
    walk fuel s v ≠ some .undefined := by
  intro fuel
  induction fuel with
  | zero => intro s v _; simp [walk]
  | succ fuel ih =>
    intro s v h
    rw [walk_succ]
    cases hb : loopBody s v with
    | next s' v' => exact ih s' v' (LoopTop_step s s' v v' h hb)
    | done r =>
      simp only [ne_eq, Option.some.injEq]
      intro hr
      rw [hr] at hb
      exact LoopTop_defined s v h hb

/-- On a tree that fits, the frames are good at every point of the walk. -/
theorem CheckKeyUniquenessStacks_good (root : Value) (hfit : root.FitsInt = true)
    (fuel : Nat) : ∀ stk ∈ CheckKeyUniquenessStacks fuel root, StackGood stk := by
  intro stk hstk
  unfold CheckKeyUniquenessStacks at hstk
  rw [List.mem_cons] at hstk
  rcases hstk with rfl | hstk
  · intro f hf
    rw [List.mem_singleton] at hf
    rw [hf]
    exact Or.inl ⟨rfl, rfl, Or.inl rfl⟩
  · exact walkStacks_invariant LoopTop StackGood passStacks_good
      (fun s v s' v' => LoopTop_step s s' v v') fuel _ _
      (LoopTop_initial root hfit) stk hstk


/-! ## The stack as the path to the value -/

theorem OnPath_advance (top : TreeIterFrame) (rest : List TreeIterFrame) (root v : Value)
    (h : OnPath root (top :: rest) v) : OnPath root (top.Advance :: rest) v := by
  cases h with
  | top _ hnone => exact OnPath.top top.Advance hnone
  | child _ _ p _ j below hroot hchild =>
    exact OnPath.child top.Advance rest p v j below hroot hchild

theorem OnPath_suffix : ∀ (dropped s' : List TreeIterFrame) (root v : Value), s' ≠ [] →
    OnPath root (dropped ++ s') v → ∃ w, OnPath root s' w := by
  intro dropped
  induction dropped with
  | nil => intro s' root v _ h; exact ⟨v, h⟩
  | cons d dropped ih =>
    intro s' root v hne h
    generalize hL : d :: dropped ++ s' = L at h
    cases h with
    | top s hnone =>
      simp only [List.cons_append, List.cons.injEq, List.append_eq_nil] at hL
      exact absurd hL.2.2 hne
    | child f stack p _ j below hroot hchild =>
      simp only [List.cons_append, List.cons.injEq] at hL
      rw [← hL.2] at below
      exact ih s' root p hne below

theorem OnPath_select (f : TreeIterFrame) (below : List TreeIterFrame) (root w v' : Value)
    (h : OnPath root (f :: below) w) (hcur : f.CurrentValue = some v') :
    OnPath root (f :: below) v' := by
  obtain ⟨_, q, hq, hidx⟩ := CurrentValue_some f v' hcur
  cases h with
  | top _ hnone => rw [hnone] at hq; cases hq
  | child _ _ p _ j hbelow hroot hchild =>
    rw [hroot] at hq
    have hqp : q = p := (Option.some.inj hq).symm
    rw [hqp] at hidx
    have hne : p.children ≠ [] := by
      intro hnil
      rw [hnil] at hchild
      simp at hchild
    exact OnPath.child f below p v' _ hbelow hroot (hidx hne).2

/-- A pass hands the path property on to the next pass. -/
theorem OnPath_step (root : Value) (s s' : List TreeIterFrame) (v v' : Value)
    (h : OnPath root s v) (hb : loopBody s v = .next s' v') : OnPath root s' v' := by
  obtain ⟨top, rest, rfl, hcase, f, below, hs', hcur⟩ := loopBody_next s s' v v' hb
  have hadv := OnPath_advance top rest root v h
  rcases hcase with ⟨hne, hpush⟩ | ⟨_, hu⟩
  · rw [hs'] at hpush
    simp only [List.cons.injEq] at hpush
    obtain ⟨hf, hbelow⟩ := hpush
    obtain ⟨_, q, hq, hidx⟩ := CurrentValue_some f v' hcur
    have hqv : q = v := by
      rw [hf] at hq
      simp only [TreeIterFrame.ofValue, Option.some.injEq] at hq
      exact hq.symm
    subst hqv
    rw [hs', hbelow]
    exact OnPath.child f _ q v' _ hadv (by rw [hf]; rfl) (hidx hne).2
  · obtain ⟨dropped, hd, _⟩ := unwind_resume _ s' hu
    rw [hd] at hadv
    obtain ⟨w, hw⟩ := OnPath_suffix dropped s' root v (by rw [hs']; simp) hadv
    rw [hs'] at hw ⊢
    exact OnPath_select f below root w v' hw hcur

theorem descend_append : ∀ (path : List Nat) (root p : Value) (j : Nat),
    root.descend path = some p →
      root.descend (path ++ [j]) = p.children[j]? ∧
      root.ancestorsAlong (path ++ [j]) = root.ancestorsAlong path ++ [p] := by
  intro path
  induction path with
  | nil =>
    intro root p j h
    simp only [Value.descend, Option.some.injEq] at h
    subst h
    constructor
    · simp only [List.nil_append, Value.descend]
      cases root.children[j]? <;> rfl
    · simp only [List.nil_append, Value.ancestorsAlong]
      cases root.children[j]? <;> rfl
  | cons i path ih =>
    intro root p j h
    simp only [Value.descend] at h
    cases hc : root.children[i]? with
    | none => rw [hc] at h; cases h
    | some c =>
      rw [hc] at h
      obtain ⟨h1, h2⟩ := ih c p j h
      constructor
      · simp only [List.cons_append, Value.descend, hc]
        exact h1
      · simp only [List.cons_append, Value.ancestorsAlong, hc]
        exact congrArg (fun l => root :: l) h2

/-- The path property in terms of child indices: the roots of the frames,
from the front of the stack to its back, are the null root of the fake "top"
frame and then the proper ancestors of the value, from the root of the tree
down to its parent. -/
theorem OnPath_path (stack : List TreeIterFrame) (root v : Value) (h : OnPath root stack v) :
    ∃ path : List Nat, root.descend path = some v ∧
      (stack.reverse.map fun f => f.root_) = none :: (root.ancestorsAlong path).map some ∧
      stack.length = 1 + path.length := by
  induction h with
  | top s hnone => exact ⟨[], rfl, by simp [hnone, Value.ancestorsAlong], rfl⟩
  | child f stack p v j _ hroot hchild ih =>
    obtain ⟨path, hdesc, hroots, hlen⟩ := ih
    obtain ⟨h1, h2⟩ := descend_append path _ p j hdesc
    refine ⟨path ++ [j], by rw [h1, hchild], ?_, by simp [hlen]; omega⟩
    rw [List.reverse_cons, List.map_append, hroots, h2]
    simp [hroot]

/-! ## Nesting depth -/

theorem heightElems_mem : ∀ (es : List Value) (c : Value), c ∈ es →
    c.height + 1 ≤ Value.heightElems es := by
  intro es
  induction es with
  | nil => intro c h; simp at h
  | cons e es ih =>
    intro c h
    rw [List.mem_cons] at h
    simp only [Value.heightElems]
    rcases h with rfl | h
    · exact Nat.le_max_left _ _
    · exact Nat.le_trans (ih c h) (Nat.le_max_right _ _)

theorem Value.height_eq (v : Value) : v.height = Value.heightElems v.children := by
  have hm : ∀ ms : List (String × Value),
      Value.heightMembers ms = Value.heightElems (ms.map Prod.snd) := by
    intro ms
    induction ms with
    | nil => rfl
    | cons m ms ih => simp [Value.heightMembers, Value.heightElems, ih]
  cases v <;> simp [Value.height, Value.children, Value.heightElems, hm]

theorem descend_height : ∀ (path : List Nat) (root v : Value), root.descend path = some v →
    path.length + v.height ≤ root.height := by
  intro path
  induction path with
  | nil =>
    intro root v h
    simp only [Value.descend, Option.some.injEq] at h
    subst h
    simp
  | cons j path ih =>
    intro root v h
    simp only [Value.descend] at h
    cases hc : root.children[j]? with
    | none => rw [hc] at h; cases h
    | some c =>
      rw [hc] at h
      have h1 := ih c v h
      have h2 : c.height + 1 ≤ root.height := by
        rw [Value.height_eq root]
        exact heightElems_mem _ c (List.mem_iff_getElem?.mpr ⟨j, hc⟩)
      simp only [List.length_cons]
      omega

theorem nestedArray_height : ∀ n : Nat, (nestedArray n).height = n := by
  intro n
  induction n with
  | zero => rfl
  | succ n ih => simp [nestedArray, Value.height, Value.heightElems, ih]


/-! ## The values the walk visits -/

theorem walkValues_succ (fuel : Nat) (stack : List TreeIterFrame) (value : Value) :
    (walkStates (fuel + 1) stack value).map Prod.snd =
      value ::
        match loopBody stack value with
        | .next stack' value' => (walkStates fuel stack' value').map Prod.snd
        | .done _ => [] := by
  rw [walkStates_succ, List.map_cons]
  cases loopBody stack value <;> rfl

theorem scanNodes_append_none (xs ys : List Value) (h : scanNodes (xs ++ ys) = none) :
    scanNodes xs = none ∧ scanNodes ys = none := by
  rw [scanNodes_append] at h
  exact Option.or_eq_none.mp h

/-- The values visited below the children of `p` that have not been selected
yet, when no key below them is repeated: their subtrees in pre-order, then
what the walk visits from the frames under the frame of `p`. -/
theorem values_children (p : Value) (stk : List TreeIterFrame) (hstk : stk ≠ []) :
    ∀ (suf pre : List Value), p.children = pre ++ suf →
      (∀ c ∈ suf, scanNodes c.preorder = none →
        ∀ (top : TreeIterFrame) (rest : List TreeIterFrame) (fuel : Nat),
          (walkStates (c.nodeCount + fuel) (top :: rest) c).map Prod.snd =
            c.preorder ++ continueValues fuel (top.Advance :: rest)) →
      scanNodes (Value.preorderElems suf) = none →
      ∀ fuel : Nat,
        continueValues (Value.nodeCountElems suf + fuel) (childFrame p pre.length :: stk) =
          Value.preorderElems suf ++ continueValues fuel stk := by
  intro suf
  induction suf with
  | nil =>
    intro pre hp _ _ fuel
    have hlen : pre.length = p.children.length := by simp [hp]
    simp only [Value.nodeCountElems, Value.preorderElems, Nat.zero_add, List.nil_append]
    rw [hlen]
    unfold continueValues
    rw [unwindAndSelect_exhausted p stk hstk]
  | cons c suf ih =>
    intro pre hp hA hscan fuel
    have hc : p.children[pre.length]? = some c := by
      rw [hp, List.getElem?_append_right (Nat.le_refl _)]
      simp
    have hp' : p.children = (pre ++ [c]) ++ suf := by simp [hp]
    simp only [Value.preorderElems] at hscan
    obtain ⟨hscanc, hscansuf⟩ := scanNodes_append_none _ _ hscan
    have step := ih (pre ++ [c]) hp' (fun d hd => hA d (List.mem_cons_of_mem c hd))
      hscansuf fuel
    simp only [List.length_append, List.length_singleton] at step
    have hfuel : Value.nodeCountElems (c :: suf) + fuel
        = c.nodeCount + (Value.nodeCountElems suf + fuel) := by
      simp only [Value.nodeCountElems]; omega
    rw [hfuel]
    conv_lhs => unfold continueValues
    rw [unwindAndSelect_more p pre.length c stk hc]
    simp only
    rw [hA c (List.mem_cons_self c suf) hscanc, childFrame_Advance, step]
    simp only [Value.preorderElems, List.append_assoc]

/-- The values visited from a pass that starts with `v` as `value`, when no
key of the subtree of `v` is repeated: the subtree in pre-order, then what
the walk visits from the stack the pass started with. -/
theorem values_subtree : ∀ v : Value, v.FitsInt = true → scanNodes v.preorder = none →
    ∀ (top : TreeIterFrame) (rest : List TreeIterFrame) (fuel : Nat),
      (walkStates (v.nodeCount + fuel) (top :: rest) v).map Prod.snd =
        v.preorder ++ continueValues fuel (top.Advance :: rest) := by
  refine Value.induct_children ?_
  intro v ih hfit hscan top rest fuel
  obtain ⟨hlen, hcs⟩ := Value.FitsInt_children v hfit
  have hfuel : v.nodeCount + fuel = (Value.nodeCountElems v.children + fuel) + 1 := by
    rw [Value.nodeCount_eq]; omega
  rw [Value.preorder_eq, scanNodes_cons] at hscan
  obtain ⟨hnd, hbelow⟩ := Option.or_eq_none.mp hscan
  rw [hfuel, walkValues_succ, Value.preorder_eq, List.cons_append]
  congr 1
  by_cases hc : v.children = []
  · rw [loopBody_leaf top rest v hnd hc, hc]
    simp only [Value.nodeCountElems, Value.preorderElems, Nat.zero_add, List.nil_append]
    rfl
  · rw [loopBody_descend top rest v hnd hc hlen]
    have key := values_children v (top.Advance :: rest) (by simp) v.children [] (by simp)
      (fun c hcmem hsc => ih c hcmem (hcs c hcmem) hsc) hbelow fuel
    simp only [List.length_nil] at key
    unfold continueValues at key
    exact key

theorem Value.preorder_length : ∀ v : Value, v.preorder.length = v.nodeCount := by
  refine Value.induct_children ?_
  intro v ih
  rw [Value.preorder_eq, Value.nodeCount_eq, List.length_cons]
  have hl : ∀ cs : List Value, (∀ c ∈ cs, c.preorder.length = c.nodeCount) →
      (Value.preorderElems cs).length = Value.nodeCountElems cs := by
    intro cs
    induction cs with
    | nil => intro _; rfl
    | cons c cs ihc =>
      intro h
      simp only [Value.preorderElems, Value.nodeCountElems, List.length_append]
      rw [h c (List.mem_cons_self _ _), ihc (fun d hd => h d (List.mem_cons_of_mem _ hd))]
  rw [hl v.children ih]
  omega

/-- On a tree that fits and has no repeated key, the values at the top of
the passes are the nodes of the tree in pre-order. -/
theorem CheckKeyUniquenessStates_values (root : Value) (hfit : root.FitsInt = true)
    (hnodup : NoDuplicateKeys root) (fuel : Nat) (hfuel : root.nodeCount ≤ fuel) :
    (CheckKeyUniquenessStates fuel root).map Prod.snd = root.preorder := by
  obtain ⟨extra, rfl⟩ := Nat.exists_eq_add_of_le hfuel
  unfold CheckKeyUniquenessStates
  rw [values_subtree root hfit ((scanNodes_none_iff root hfit).mpr hnodup)]
  simp [continueValues, unwindAndSelect, unwind, TreeIterFrame.Advance,
    TreeIterFrame.empty, TreeIterFrame.HasMoreElements]

/-! ## The empty stack -/

theorem selectCurrent_ne_returned (stk : List TreeIterFrame) :
    selectCurrent stk ≠ .done (.returned ()) := by
  cases stk with
  | nil => simp [selectCurrent]
  | cons top rest =>
    cases h : top.CurrentValue <;> simp [selectCurrent, h]

theorem NilOnlyLast_nil : NilOnlyLast [] := by
  intro n h; simp at h

theorem NilOnlyLast_append (a b : List (List TreeIterFrame)) (ha : NilOnlyLast a)
    (hb : NilOnlyLast b) (hab : [] ∈ a → b = []) : NilOnlyLast (a ++ b) := by
  intro n h
  by_cases hn : n < a.length
  · rw [List.getElem?_append_left hn] at h
    have hbnil : b = [] := hab (List.mem_iff_getElem?.mpr ⟨n, h⟩)
    rw [hbnil, List.append_nil]
    exact ha n h
  · rw [List.getElem?_append_right (not_lt.mp hn)] at h
    have := hb _ h
    rw [List.length_append]
    omega

theorem NilOnlyLast_cons (x : List TreeIterFrame) (a : List (List TreeIterFrame))
    (hx : x ≠ []) (ha : NilOnlyLast a) : NilOnlyLast (x :: a) := by
  have h1 : NilOnlyLast [x] := by
    intro n h
    cases n with
    | zero => simp at h; exact absurd h hx
    | succ n => simp at h
  have := NilOnlyLast_append [x] a h1 ha (by
    intro hmem
    rw [List.mem_singleton] at hmem
    exact absurd hmem.symm hx)
  simpa using this

theorem unwindPops_NilOnlyLast : ∀ stack : List TreeIterFrame,
    NilOnlyLast (unwindPops stack) := by
  intro stack
  induction stack with
  | nil => exact NilOnlyLast_nil
  | cons top rest ih =>
    rw [unwindPops]
    by_cases hm : top.HasMoreElements = true
    · rw [if_pos hm]; exact NilOnlyLast_nil
    · rw [if_neg hm]
      cases rest with
      | nil =>
        intro n h
        cases n with
        | zero => rfl
        | succ n => simp at h
      | cons g below =>
        simp only [List.isEmpty_cons, Bool.false_eq_true, if_false]
        exact NilOnlyLast_cons _ _ (by simp) ih

theorem unwind_finished_of_nil_mem : ∀ stack : List TreeIterFrame,
    [] ∈ unwindPops stack → unwind stack = .finished := by
  intro stack
  induction stack with
  | nil => intro h; simp [unwindPops] at h
  | cons top rest ih =>
    intro h
    rw [unwindPops] at h
    rw [unwind]
    by_cases hm : top.HasMoreElements = true
    · simp [hm] at h
    · rw [if_neg hm] at h ⊢
      cases rest with
      | nil => rfl
      | cons g below =>
        simp only [List.isEmpty_cons, Bool.false_eq_true, if_false, List.mem_cons] at h ⊢
        rcases h with h | h
        · cases h
        · exact ih h

theorem unwindPops_ends_of_finished : ∀ stack : List TreeIterFrame,
    unwind stack = .finished → ∃ init, unwindPops stack = init ++ [[]] := by
  intro stack
  induction stack with
  | nil => intro h; simp [unwind] at h
  | cons top rest ih =>
    intro h
    rw [unwind] at h
    rw [unwindPops]
    by_cases hm : top.HasMoreElements = true
    · simp [hm] at h
    · rw [if_neg hm] at h ⊢
      cases rest with
      | nil => exact ⟨[], rfl⟩
      | cons g below =>
        simp only [List.isEmpty_cons, Bool.false_eq_true, if_false] at h ⊢
        obtain ⟨init, hinit⟩ := ih h
        exact ⟨(g :: below) :: init, by rw [hinit]; rfl⟩

theorem passStacks_cons (top : TreeIterFrame) (rest : List TreeIterFrame) (v : Value) :
    passStacks (top :: rest) v =
      (top.Advance :: rest) ::
        match nodeDuplicate v with
        | some _ => []
        | none =>
          if v.children.isEmpty then unwindPops (top.Advance :: rest)
          else [TreeIterFrame.ofValue v :: top.Advance :: rest] := by
  unfold nodeDuplicate
  simp only [passStacks, descend_condition]
  cases (if v.IsObject = true then findDuplicateKey v else none) with
  | some k => rfl
  | none => cases hc : v.children.isEmpty <;> simp

theorem passStacks_NilOnlyLast (s : List TreeIterFrame) (v : Value) :
    NilOnlyLast (passStacks s v) := by
  cases s with
  | nil => exact NilOnlyLast_nil
  | cons top rest =>
    rw [passStacks_cons]
    apply NilOnlyLast_cons _ _ (by simp)
    cases nodeDuplicate v with
    | some k => exact NilOnlyLast_nil
    | none =>
      cases hc : v.children.isEmpty with
      | true =>
        simp only [if_true]
        exact unwindPops_NilOnlyLast _
      | false =>
        simp only [Bool.false_eq_true, if_false]
        exact NilOnlyLast_cons _ _ (by simp) NilOnlyLast_nil

theorem passStacks_nil_mem (s : List TreeIterFrame) (v : Value) (h : [] ∈ passStacks s v) :
    loopBody s v = .done (.returned ()) := by
  cases s with
  | nil => simp [passStacks] at h
  | cons top rest =>
    rw [passStacks_cons, List.mem_cons] at h
    rcases h with h | h
    · cases h
    · cases hnd : nodeDuplicate v with
      | some k => rw [hnd] at h; simp at h
      | none =>
        rw [hnd] at h
        cases hc : v.children.isEmpty with
        | true =>
          rw [hc] at h
          simp only [if_true] at h
          rw [loopBody_leaf top rest v hnd (List.isEmpty_iff.mp hc)]
          simp [unwindAndSelect, unwind_finished_of_nil_mem _ h]
        | false =>
          rw [hc] at h
          simp only [Bool.false_eq_true, if_false, List.mem_singleton] at h
          cases h

theorem walkStacks_NilOnlyLast : ∀ (fuel : Nat) (s : List TreeIterFrame) (v : Value),
    NilOnlyLast (walkStacks fuel s v) := by
  intro fuel
  induction fuel with
  | zero => intro s v; exact NilOnlyLast_nil
  | succ fuel ih =>
    intro s v
    rw [walkStacks_succ]
    apply NilOnlyLast_append _ _ (passStacks_NilOnlyLast s v)
    · cases loopBody s v with
      | next s' v' => exact ih s' v'
      | done r => exact NilOnlyLast_nil
    · intro hmem
      rw [passStacks_nil_mem s v hmem]

theorem loopBody_returned (s : List TreeIterFrame) (v : Value)
    (h : loopBody s v = .done (.returned ())) : ∃ init, passStacks s v = init ++ [[]] := by
  cases s with
  | nil => simp [loopBody] at h
  | cons top rest =>
    rw [passStacks_cons]
    cases hnd : nodeDuplicate v with
    | some k => rw [loopBody_throw top rest v k hnd] at h; cases h
    | none =>
      by_cases hc : v.children = []
      · rw [loopBody_leaf top rest v hnd hc] at h
        have hfin : unwind (top.Advance :: rest) = .finished := by
          unfold unwindAndSelect at h
          cases hu : unwind (top.Advance :: rest) with
          | resume stk =>
            rw [hu] at h
            exact absurd h (selectCurrent_ne_returned stk)
          | finished => rfl
          | undefined => rw [hu] at h; cases h
        obtain ⟨init, hinit⟩ := unwindPops_ends_of_finished _ hfin
        refine ⟨(top.Advance :: rest) :: init, ?_⟩
        simp only [hc, List.isEmpty_nil, if_true, hinit, List.cons_append]
      · unfold nodeDuplicate at hnd
        have hd : loopBody (top :: rest) v =
            selectCurrent (TreeIterFrame.ofValue v :: top.Advance :: rest) := by
          simp [loopBody, hnd, descend_condition, hc]
        rw [hd] at h
        exact absurd h (selectCurrent_ne_returned _)

/-- A walk that returns leaves the empty stack last. -/
theorem walkStacks_ends_of_returned : ∀ (fuel : Nat) (s : List TreeIterFrame) (v : Value),
    walk fuel s v = some (.returned ()) → ∃ init, walkStacks fuel s v = init ++ [[]] := by
  intro fuel
  induction fuel with
  | zero => intro s v h; simp [walk] at h
  | succ fuel ih =>
    intro s v h
    rw [walk_succ] at h
    rw [walkStacks_succ]
    cases hb : loopBody s v with
    | next s' v' =>
      rw [hb] at h
      obtain ⟨init, hinit⟩ := ih s' v' h
      exact ⟨passStacks s v ++ init, by simp only; rw [hinit, List.append_assoc]⟩
    | done r =>
      rw [hb] at h
      simp only [Option.some.injEq] at h
      rw [h] at hb
      obtain ⟨init, hinit⟩ := loopBody_returned s v hb
      exact ⟨init, by simp only; rw [hinit, List.append_nil]⟩


/-! ## The fake "top" frame -/

theorem SentinelAtBottom_advance (top : TreeIterFrame) (rest : List TreeIterFrame)
    (h : SentinelAtBottom (top :: rest)) : SentinelAtBottom (top.Advance :: rest) := by
  cases rest with
  | nil =>
    obtain ⟨s, hs, hroot, hend⟩ := h
    simp only [List.getLast?_singleton, Option.some.injEq] at hs
    subst hs
    exact ⟨top.Advance, List.getLast?_singleton _, hroot, hend⟩
  | cons g below =>
    obtain ⟨s, hs, hroot, hend⟩ := h
    rw [List.getLast?_cons_cons] at hs
    exact ⟨s, by rw [List.getLast?_cons_cons]; exact hs, hroot, hend⟩

theorem SentinelAtBottom_push (f : TreeIterFrame) (stk : List TreeIterFrame)
    (h : SentinelAtBottom stk) : SentinelAtBottom (f :: stk) := by
  obtain ⟨s, hs, hroot, hend⟩ := h
  cases stk with
  | nil => simp at hs
  | cons g below => exact ⟨s, by rw [List.getLast?_cons_cons]; exact hs, hroot, hend⟩

theorem SentinelAtBottom_suffix (dropped stk : List TreeIterFrame) (hne : stk ≠ [])
    (h : SentinelAtBottom (dropped ++ stk)) : SentinelAtBottom stk := by
  obtain ⟨s, hs, hroot, hend⟩ := h
  rw [List.getLast?_append_of_ne_nil dropped hne] at hs
  exact ⟨s, hs, hroot, hend⟩

theorem passStacks_sentinel (s : List TreeIterFrame) (v : Value) (h : SentinelAtBottom s) :
    ∀ stk ∈ passStacks s v, stk ≠ [] → SentinelAtBottom stk := by
  cases s with
  | nil => intro stk hstk; simp [passStacks] at hstk
  | cons top rest =>
    have hadv := SentinelAtBottom_advance top rest h
    intro stk hstk hne
    rw [passStacks_cons, List.mem_cons] at hstk
    rcases hstk with rfl | hstk
    · exact hadv
    · cases hnd : nodeDuplicate v with
      | some k => rw [hnd] at hstk; simp at hstk
      | none =>
        rw [hnd] at hstk
        cases hc : v.children.isEmpty with
        | true =>
          rw [hc] at hstk
          simp only [if_true] at hstk
          obtain ⟨dropped, hd⟩ := unwindPops_suffix _ stk hstk
          exact SentinelAtBottom_suffix dropped stk hne (hd ▸ hadv)
        | false =>
          rw [hc] at hstk
          simp only [Bool.false_eq_true, if_false, List.mem_singleton] at hstk
          subst hstk
          exact SentinelAtBottom_push _ _ hadv

theorem SentinelAtBottom_step (s s' : List TreeIterFrame) (v v' : Value)
    (h : SentinelAtBottom s) (hb : loopBody s v = .next s' v') : SentinelAtBottom s' := by
  obtain ⟨top, rest, rfl, hcase, f, below, hs', _⟩ := loopBody_next s s' v v' hb
  have hadv := SentinelAtBottom_advance top rest h
  rcases hcase with ⟨_, hpush⟩ | ⟨_, hu⟩
  · rw [hpush]
    exact SentinelAtBottom_push _ _ hadv
  · obtain ⟨dropped, hd, _⟩ := unwind_resume _ s' hu
    exact SentinelAtBottom_suffix dropped s' (by rw [hs']; simp) (hd ▸ hadv)

theorem SentinelAtBottom_initial : SentinelAtBottom [TreeIterFrame.empty] :=
  ⟨TreeIterFrame.empty, rfl, rfl, rfl⟩

theorem children_ne_nil_container (p : Value) (h : p.children ≠ []) :
    p.IsArray = true ∨ p.IsObject = true := by
  cases p with
  | object ms => exact Or.inr rfl
  | array es => exact Or.inl rfl
  | null => exact absurd rfl h
  | bool b => exact absurd rfl h
  | string s => exact absurd rfl h
  | number n => exact absurd rfl h

theorem unwindPops_decreases : ∀ stack : List TreeIterFrame,
    List.Chain'
      (fun a b : List TreeIterFrame =>
        b.length < a.length ∧ remainingBelow b ≤ remainingBelow a)
      (stack :: unwindPops stack) := by
  intro stack
  induction stack with
  | nil => simp [unwindPops]
  | cons top rest ih =>
    rw [unwindPops]
    by_cases hm : top.HasMoreElements = true
    · simp [hm]
    · rw [if_neg hm, List.chain'_cons]
      refine ⟨⟨by simp, by rw [remainingBelow_cons]; omega⟩, ?_⟩
      by_cases he : rest.isEmpty = true
      · simp [he]
      · rw [if_neg he]
        exact ih

theorem CheckKeyUniqueness_leaf (root : Value) (h : root.children = []) :
    CheckKeyUniqueness root = .returned () := by
  have hfit : root.FitsInt = true := by
    cases root with
    | object ms =>
      have : ms = [] := by simpa [Value.children] using h
      subst this
      rfl
    | array es =>
      have : es = [] := by simpa [Value.children] using h
      subst this
      rfl
    | null => rfl
    | bool b => rfl
    | string s => rfl
    | number n => rfl
  have hlen : root.children.length < 2 ^ 31 := by rw [h]; simp
  have hnames : root.memberNames.Nodup := by
    cases root with
    | object ms =>
      have : ms = [] := by simpa [Value.children] using h
      subst this
      exact List.nodup_nil
    | array es => exact List.nodup_nil
    | null => exact List.nodup_nil
    | bool b => exact List.nodup_nil
    | string s => exact List.nodup_nil
    | number n => exact List.nodup_nil
  rw [CheckKeyUniqueness_eq root hfit, Value.preorder_eq, h, scanNodes_cons,
    (nodeDuplicate_none_iff root hlen).mpr hnames]
  rfl

/-! ## Termination, traversal order and the frame stack -/

/-- The call `CheckKeyUniqueness` ends on every tree: one pass of the loop for
every node is enough fuel, whatever more is given; on a tree whose containers
have fewer than 2^31 children it ends by returning or by throwing, and on a
scalar or an empty array or object it returns.  The measure of the outer
loop, the number of nodes not visited yet, starts at the number of nodes of
the tree and falls with every pass; every `pop_back` of the unwind loop
shortens the stack and leaves no more nodes to visit than before. -/
theorem CheckKeyUniqueness_terminates (root : Value) :
    (∀ fuel, root.nodeCount ≤ fuel →
      CheckKeyUniquenessFuel fuel root = some (CheckKeyUniqueness root)) ∧
    (root.FitsInt = true →
      CheckKeyUniqueness root = .returned () ∨ ∃ e, CheckKeyUniqueness root = .threw e) ∧
    (root.children = [] → CheckKeyUniqueness root = .returned ()) ∧
    walkMeasure [TreeIterFrame.empty] root = root.nodeCount ∧
    (∀ fuel, List.Chain' (fun a b => walkMeasure b.1 b.2 < walkMeasure a.1 a.2)
      (CheckKeyUniquenessStates fuel root)) ∧
    (∀ stack : List TreeIterFrame, List.Chain'
      (fun a b : List TreeIterFrame =>
        b.length < a.length ∧ remainingBelow b ≤ remainingBelow a)
      (stack :: unwindPops stack)) := by
  refine ⟨CheckKeyUniquenessFuel_enough root, ?_, CheckKeyUniqueness_leaf root,
    walkMeasure_initial root, ?_, unwindPops_decreases⟩
  · intro hfit
    rw [CheckKeyUniqueness_eq root hfit]
    cases scanNodes root.preorder with
    | none => exact Or.inl rfl
    | some key => exact Or.inr ⟨_, rfl⟩
  · intro fuel
    exact walkStates_measure fuel _ root StackOfContainers_initial

/-- On a tree without duplicate keys (containers of fewer than 2^31
children), the values bound to `value` at the top of the passes of the outer
loop are exactly the nodes of the tree in pre-order, left to right; the
number of passes is the number of nodes. -/
theorem CheckKeyUniqueness_visits_preorder (root : Value) (hfit : root.FitsInt = true)
    (hnodup : NoDuplicateKeys root) (fuel : Nat) (hfuel : root.nodeCount ≤ fuel) :
    (CheckKeyUniquenessStates fuel root).map Prod.snd = root.preorder ∧
    (CheckKeyUniquenessStates fuel root).length = root.nodeCount := by
  have h := CheckKeyUniquenessStates_values root hfit hnodup fuel hfuel
  refine ⟨h, ?_⟩
  have hl := congrArg List.length h
  rw [List.length_map, Value.preorder_length] at hl
  exact hl

/-- Instance at the array `docPlain`, which has seven nodes. -/
theorem CheckKeyUniqueness_visits_preorder_witness :
    docPlain.FitsInt = true ∧ NoDuplicateKeys docPlain ∧ docPlain.nodeCount ≤ 7 ∧
    (CheckKeyUniquenessStates 7 docPlain).map Prod.snd = docPlain.preorder ∧
    (CheckKeyUniquenessStates 7 docPlain).length = docPlain.nodeCount :=
  ⟨by decide, by decide, by decide,
    CheckKeyUniqueness_visits_preorder docPlain (by decide) (by decide) 7 (by decide)⟩

/-- C13: at the top of pass `n` of the outer loop, with `v` the value about
to be visited, there is a list of child indices leading from the root to
`v` such that the roots of the frames, from the front of the stack to its
back, are the null root of the fake "top" frame followed by the proper
ancestors of `v` from the root of the tree down to the parent of `v`; the
stack has one frame more than `v` is deep, at most the nesting depth of the
tree plus one.  The tree of `n` single-element arrays nested in each other
has nesting depth `n`. -/
theorem stack_is_path_to_value (root : Value) (fuel n : Nat) (stack : List TreeIterFrame)
    (v : Value) (h : (CheckKeyUniquenessStates fuel root)[n]? = some (stack, v)) :
    (∃ path : List Nat, root.descend path = some v ∧
      (stack.reverse.map fun f => f.root_) = none :: (root.ancestorsAlong path).map some ∧
      stack.length = 1 + path.length ∧ stack.length ≤ root.height + 1) ∧
    ∀ depth : Nat, (nestedArray depth).height = depth := by
  refine ⟨?_, nestedArray_height⟩
  have hmem : (stack, v) ∈ CheckKeyUniquenessStates fuel root :=
    List.mem_iff_getElem?.mpr ⟨n, h⟩
  have hpath := walkStates_invariant (fun s w => OnPath root s w)
    (fun s w s' w' hp hb => OnPath_step root s s' w w' hp hb) fuel _ root
    (OnPath.top TreeIterFrame.empty rfl) (stack, v) hmem
  obtain ⟨path, hdesc, hroots, hlen⟩ := OnPath_path stack root v hpath
  have hh := descend_height path root v hdesc
  exact ⟨path, hdesc, hroots, hlen, by omega⟩

/-- Witness of C13 at pass 5 of the walk over `docPlain`, whose value is the
Boolean inside the array inside the object inside the root. -/
theorem stack_is_path_to_value_witness :
    ∃ (stack : List TreeIterFrame) (v : Value),
      (CheckKeyUniquenessStates 7 docPlain)[5]? = some (stack, v) ∧
      v = .bool true ∧ stack.length = 4 ∧
      ∃ path : List Nat, docPlain.descend path = some v ∧
        (stack.reverse.map fun f => f.root_) =
          none :: (docPlain.ancestorsAlong path).map some ∧
        stack.length = 1 + path.length ∧ stack.length ≤ docPlain.height + 1 :=
  ⟨_, _, rfl, rfl, rfl, (stack_is_path_to_value docPlain 7 5 _ _ rfl).1⟩


theorem GoodFrame_bounds (f : TreeIterFrame) (h : GoodFrame f) :
    (f.root_ ≠ none → 0 ≤ f.current_ ∧ f.current_ ≤ f.end_) ∧
    (f.root_ = none → f.end_ = 0 ∧ (f.current_ = 0 ∨ f.current_ = 1)) := by
  rcases h with ⟨hnone, hend, hcur⟩ | ⟨p, i, rfl, _, _, hi⟩
  · exact ⟨fun hne => absurd hnone hne, fun _ => ⟨hend, hcur⟩⟩
  · constructor
    · intro _
      simp only [childFrame]
      omega
    · intro hnone
      simp [childFrame] at hnone

theorem GoodFrame_container (f : TreeIterFrame) (h : GoodFrame f) :
    f.root_ = none ∨ ∃ p : Value, f.root_ = some p ∧
      (p.IsArray = true ∨ p.IsObject = true) ∧ p.children ≠ [] ∧
      f.end_ = (p.children.length : Int) ∧ 1 ≤ f.end_ := by
  rcases h with ⟨hnone, _, _⟩ | ⟨p, i, rfl, _, hne, _⟩
  · exact Or.inl hnone
  · refine Or.inr ⟨p, rfl, children_ne_nil_container p hne, hne, rfl, ?_⟩
    have : 0 < p.children.length := List.length_pos.mpr hne
    simp only [childFrame]
    omega

/-- The states at the top of the passes after the first are reached through
`CurrentValue` on the back of the stack. -/
theorem walkStates_selected : ∀ (fuel : Nat) (s : List TreeIterFrame) (v : Value)
    (n : Nat) (stack : List TreeIterFrame) (w : Value),
    (walkStates fuel s v)[n + 1]? = some (stack, w) →
      ∃ top rest, stack = top :: rest ∧ top.CurrentValue = some w := by
  intro fuel
  induction fuel with
  | zero => intro s v n stack w h; simp [walkStates] at h
  | succ fuel ih =>
    intro s v n stack w h
    rw [walkStates_succ, List.getElem?_cons_succ] at h
    cases hb : loopBody s v with
    | done r => rw [hb] at h; simp at h
    | next s' v' =>
      rw [hb] at h
      simp only at h
      cases n with
      | zero =>
        cases fuel with
        | zero => simp [walkStates] at h
        | succ fuel =>
          rw [walkStates_succ, List.getElem?_cons_zero] at h
          simp only [Option.some.injEq, Prod.mk.injEq] at h
          obtain ⟨_, _, _, _, f, below, hs', hcur⟩ := loopBody_next s s' v v' hb
          exact ⟨f, below, by rw [← h.1, hs'], by rw [← h.2]; exact hcur⟩
      | succ n => exact ih s' v' n stack w h

/-- C14, counterexample: in the walk over `docPlain` the stack after the
first `Advance` is the fake "top" frame alone, with `current_` 1 above
`end_` 0. -/
theorem sentinel_current_exceeds_end :
    (CheckKeyUniquenessStacks 7 docPlain)[1]? = some [TreeIterFrame.empty.Advance] ∧
    TreeIterFrame.empty.Advance.current_ = 1 ∧ TreeIterFrame.empty.Advance.end_ = 0 ∧
    ¬ (TreeIterFrame.empty.Advance.current_ ≤ TreeIterFrame.empty.Advance.end_) :=
  ⟨rfl, rfl, rfl, by decide⟩

/-- C14, amended: on a tree whose containers have fewer than 2^31 children,
at every point of the walk (after the fake "top" frame is placed and after
every `Advance`, `emplace_back` and `pop_back`) every frame of an array or
object on the stack has `0 <= current_ <= end_`, and the fake "top" frame,
the one with the null root, has `end_` 0 and `current_` 0 or 1. -/
theorem frames_within_bounds (root : Value) (hfit : root.FitsInt = true) (fuel : Nat) :
    ∀ stk ∈ CheckKeyUniquenessStacks fuel root, ∀ f ∈ stk,
      (f.root_ ≠ none → 0 ≤ f.current_ ∧ f.current_ ≤ f.end_) ∧
      (f.root_ = none → f.end_ = 0 ∧ (f.current_ = 0 ∨ f.current_ = 1)) :=
  fun stk hstk f hf =>
    GoodFrame_bounds f (CheckKeyUniquenessStacks_good root hfit fuel stk hstk f hf)

/-- Witness of C14 (amended) at the walk over `docPlain`, for the frame of
the root array once its three elements have been selected. -/
theorem frames_within_bounds_witness :
    docPlain.FitsInt = true ∧
    (0 : Int) ≤ (childFrame docPlain 3).current_ ∧
    (childFrame docPlain 3).current_ ≤ (childFrame docPlain 3).end_ :=
  ⟨by decide,
    (frames_within_bounds docPlain (by decide) 7
      [childFrame docPlain 3, TreeIterFrame.empty.Advance]
      (List.mem_iff_getElem?.mpr ⟨12, rfl⟩)
      (childFrame docPlain 3) (List.mem_cons_self _ _)).1 (by simp [childFrame])⟩

/-- C15, counterexample: the walk over `docPlain` returns, and the last stack
of the walk is the empty one; the walk over the empty array places the fake
"top" frame, advances it and pops it. -/
theorem stack_empty_at_return :
    CheckKeyUniqueness docPlain = .returned () ∧
    (CheckKeyUniquenessStacks docPlain.nodeCount docPlain).getLast? = some [] ∧
    CheckKeyUniqueness (.array []) = .returned () ∧
    CheckKeyUniquenessStacks 1 (.array []) =
      [[TreeIterFrame.empty], [TreeIterFrame.empty.Advance], []] :=
  ⟨rfl, rfl, rfl, rfl⟩

/-- C15, amended: the fake "top" frame is popped by the last `pop_back`
only.  In the successive stacks of the walk the empty stack is met at the
last place only; every stack that is not empty has the fake "top" frame at
its front; and when the walker returns, the last stack is the empty one:
completion is detected by `stack.empty()` after that pop. -/
theorem sentinel_popped_last (root : Value) (fuel : Nat) :
    (∀ n : Nat, (CheckKeyUniquenessStacks fuel root)[n]? = some [] →
      n + 1 = (CheckKeyUniquenessStacks fuel root).length) ∧
    (∀ stk ∈ CheckKeyUniquenessStacks fuel root, stk ≠ [] →
      ∃ s : TreeIterFrame, stk.getLast? = some s ∧ s.root_ = none ∧ s.end_ = 0) ∧
    (CheckKeyUniquenessFuel fuel root = some (.returned ()) →
      ∃ init, CheckKeyUniquenessStacks fuel root = init ++ [[]]) := by
  refine ⟨?_, ?_, ?_⟩
  · exact NilOnlyLast_cons _ _ (by simp) (walkStacks_NilOnlyLast fuel _ root)
  · intro stk hstk hne
    unfold CheckKeyUniquenessStacks at hstk
    rw [List.mem_cons] at hstk
    rcases hstk with rfl | hstk
    · exact SentinelAtBottom_initial
    · exact walkStacks_invariant (fun s _ => SentinelAtBottom s)
        (fun stk => stk ≠ [] → SentinelAtBottom stk)
        (fun s v hs => passStacks_sentinel s v hs)
        (fun s v s' v' hs hb => SentinelAtBottom_step s s' v v' hs hb)
        fuel _ root SentinelAtBottom_initial stk hstk hne
  · intro hret
    obtain ⟨init, hinit⟩ := walkStacks_ends_of_returned fuel _ root hret
    exact ⟨[TreeIterFrame.empty] :: init, by
      unfold CheckKeyUniquenessStacks
      rw [hinit]
      rfl⟩

/-- C16: on a tree whose containers have fewer than 2^31 children the walk
never runs into undefined behaviour, whatever the number of passes: no
`CurrentValue` with `current_ < end_` violated or an index outside the
container, no `back()` of an empty vector.  The stack is not empty at the
top of any pass, and every `value` after the first is the result of
`CurrentValue` on a back of the stack with `current_ < end_`, whose root is
an array or object holding that value at index `current_`. -/
theorem CurrentValue_precondition_holds (root : Value) (hfit : root.FitsInt = true)
    (fuel : Nat) :
    CheckKeyUniquenessFuel fuel root ≠ some .undefined ∧
    (∀ st ∈ CheckKeyUniquenessStates fuel root, st.1 ≠ []) ∧
    (∀ (n : Nat) (stack : List TreeIterFrame) (v : Value),
      (CheckKeyUniquenessStates fuel root)[n + 1]? = some (stack, v) →
        ∃ (top : TreeIterFrame) (rest : List TreeIterFrame) (p : Value),
          stack = top :: rest ∧ top.current_ < top.end_ ∧ top.CurrentValue = some v ∧
          top.root_ = some p ∧ 0 ≤ top.current_ ∧
          p.children[top.current_.toNat]? = some v) := by
  have hinv : ∀ st ∈ CheckKeyUniquenessStates fuel root, LoopTop st.1 st.2 :=
    walkStates_invariant LoopTop (fun s v s' v' => LoopTop_step s s' v v') fuel _ root
      (LoopTop_initial root hfit)
  refine ⟨walk_defined fuel _ root (LoopTop_initial root hfit), ?_, ?_⟩
  · intro st hst hnil
    obtain ⟨_, top, rest, hs, _⟩ := hinv st hst
    rw [hs] at hnil
    cases hnil
  · intro n stack v h
    obtain ⟨top, rest, hs, hcur⟩ := walkStates_selected fuel _ root n stack v h
    have hmem : (stack, v) ∈ CheckKeyUniquenessStates fuel root :=
      List.mem_iff_getElem?.mpr ⟨n + 1, h⟩
    obtain ⟨_, top0, rest0, hs0, _, htop, _⟩ := hinv (stack, v) hmem
    have htt : top0 = top := by
      simp only at hs0
      rw [hs] at hs0
      exact (List.cons.inj hs0).1.symm
    rw [htt] at htop
    obtain ⟨hlt, q, hq, hidx⟩ := CurrentValue_some top v hcur
    rcases htop with ⟨hnone, _⟩ | ⟨p, i, hp, _, hne, _⟩
    · rw [hnone] at hq; cases hq
    · have hqp : q = p := by
        rw [hp] at hq
        simp only [childFrame, Option.some.injEq] at hq
        exact hq.symm
      rw [hqp] at hq hidx
      exact ⟨top, rest, p, hs, hlt, hcur, hq, (hidx hne).1, (hidx hne).2⟩

/-- Witness of C16 at the walk over `docPlain`. -/
theorem CurrentValue_precondition_holds_witness :
    docPlain.FitsInt = true ∧ CheckKeyUniquenessFuel 7 docPlain ≠ some .undefined :=
  ⟨by decide, (CurrentValue_precondition_holds docPlain (by decide) 7).1⟩

/-- C17: whatever values between 0 and 6 the rapidjson kinds have, different
kinds having different values: the nine enumerators of `Type` have pairwise
different values; `booleanValue`, `intValue`, `uintValue`, `realValue` and
`errorValue` are 1000 to 1004, the value of no rapidjson kind; `nullValue`,
`objectValue`, `arrayValue` and `stringValue` have the values of
`kNullType`, `kObjectType`, `kArrayType` and `kStringType`. -/
theorem ExtendedType_values (kind : RapidjsonType → Nat) (hrange : ∀ k, kind k ≤ 6)
    (hinj : ∀ a b, kind a = kind b → a = b) :
    (∀ a b : ExtendedType, a.valueWith kind = b.valueWith kind → a = b) ∧
    (ExtendedType.booleanValue.valueWith kind = 1000 ∧
      ExtendedType.intValue.valueWith kind = 1001 ∧
      ExtendedType.uintValue.valueWith kind = 1002 ∧
      ExtendedType.realValue.valueWith kind = 1003 ∧
      ExtendedType.errorValue.valueWith kind = 1004) ∧
    (∀ k : RapidjsonType,
      ExtendedType.booleanValue.valueWith kind ≠ kind k ∧
      ExtendedType.intValue.valueWith kind ≠ kind k ∧
      ExtendedType.uintValue.valueWith kind ≠ kind k ∧
      ExtendedType.realValue.valueWith kind ≠ kind k ∧
      ExtendedType.errorValue.valueWith kind ≠ kind k) ∧
    (ExtendedType.nullValue.valueWith kind = kind .kNullType ∧
      ExtendedType.objectValue.valueWith kind = kind .kObjectType ∧
      ExtendedType.arrayValue.valueWith kind = kind .kArrayType ∧
      ExtendedType.stringValue.valueWith kind = kind .kStringType) := by
  have h1 := hrange .kNullType
  have h2 := hrange .kObjectType
  have h3 := hrange .kArrayType
  have h4 := hrange .kStringType
  refine ⟨?_, ⟨rfl, rfl, rfl, rfl, rfl⟩, ?_, ⟨rfl, rfl, rfl, rfl⟩⟩
  · intro a b
    cases a <;> cases b <;> intro h <;>
      first
        | rfl
        | exact absurd (hinj _ _ h) (by decide)
        | (simp only [ExtendedType.valueWith] at h; omega)
  · intro k
    have hk := hrange k
    simp only [ExtendedType.valueWith]
    omega

/-- Witness of C17 with the kind values of rapidjson.h, 0 to 6: the values
of the nine enumerators are pairwise different. -/
theorem ExtendedType_values_witness :
    (∀ k : RapidjsonType, k.value ≤ 6) ∧
    (∀ a b : ExtendedType, a.value = b.value → a = b) ∧
    ExtendedType.errorValue.value = 1004 ∧ ExtendedType.stringValue.value = 5 :=
  ⟨by intro k; cases k <;> decide,
    (ExtendedType_values RapidjsonType.value (by intro k; cases k <;> decide)
      (by intro a b; cases a <;> cases b <;> decide)).1, rfl, rfl⟩

/-- On a tree whose containers have fewer than 2^31 children, at every
point of the walk every frame on the stack other than the fake "top" frame
(the one with the null root) has as its root an array or object with
children, and `end_` is their number, at least 1; every `value` after the
first is selected by a frame `childFrame p i` of such a node as its child at
index `i`, so neither `end_ = 1` of the constructor nor `return root_` of
`CurrentValue` is ever used. -/
theorem pushed_frames_are_containers (root : Value) (hfit : root.FitsInt = true)
    (fuel : Nat) :
    (∀ stk ∈ CheckKeyUniquenessStacks fuel root, ∀ f ∈ stk,
      f.root_ = none ∨ ∃ p : Value, f.root_ = some p ∧
        (p.IsArray = true ∨ p.IsObject = true) ∧ p.children ≠ [] ∧
        f.end_ = (p.children.length : Int) ∧ 1 ≤ f.end_) ∧
    (∀ (n : Nat) (stack : List TreeIterFrame) (v : Value),
      (CheckKeyUniquenessStates fuel root)[n + 1]? = some (stack, v) →
        ∃ (rest : List TreeIterFrame) (p : Value) (i : Nat),
          stack = childFrame p i :: rest ∧ (p.IsArray = true ∨ p.IsObject = true) ∧
          p.children[i]? = some v) := by
  constructor
  · intro stk hstk f hf
    exact GoodFrame_container f (CheckKeyUniquenessStacks_good root hfit fuel stk hstk f hf)
  · intro n stack v h
    have hinv : ∀ st ∈ CheckKeyUniquenessStates fuel root, LoopTop st.1 st.2 :=
      walkStates_invariant LoopTop (fun s v s' v' => LoopTop_step s s' v v') fuel _ root
        (LoopTop_initial root hfit)
    obtain ⟨top, rest, hs, hcur⟩ := walkStates_selected fuel _ root n stack v h
    have hmem : (stack, v) ∈ CheckKeyUniquenessStates fuel root :=
      List.mem_iff_getElem?.mpr ⟨n + 1, h⟩
    obtain ⟨_, top0, rest0, hs0, _, htop, _⟩ := hinv (stack, v) hmem
    have htt : top0 = top := by
      simp only at hs0
      rw [hs] at hs0
      exact (List.cons.inj hs0).1.symm
    rw [htt] at htop
    obtain ⟨_, _, p, i, hp, hget⟩ := GoodFrame_of_CurrentValue top v htop hcur
    have hne : p.children ≠ [] := by
      intro hnil
      rw [hnil] at hget
      simp at hget
    exact ⟨rest, p, i, by rw [hs, hp], children_ne_nil_container p hne, hget⟩

/-- Instance at the walk over `docPlain`: the frame pushed for the
root array has the array as root and `end_` 3. -/
theorem pushed_frames_are_containers_witness :
    docPlain.FitsInt = true ∧
    ((childFrame docPlain 0).root_ = none ∨ ∃ p : Value,
      (childFrame docPlain 0).root_ = some p ∧ (p.IsArray = true ∨ p.IsObject = true) ∧
      p.children ≠ [] ∧ (childFrame docPlain 0).end_ = (p.children.length : Int) ∧
      1 ≤ (childFrame docPlain 0).end_) :=
  ⟨by decide,
    (pushed_frames_are_containers docPlain (by decide) 7).1
      [childFrame docPlain 0, TreeIterFrame.empty.Advance]
      (List.mem_iff_getElem?.mpr ⟨2, rfl⟩)
      (childFrame docPlain 0) (List.mem_cons_self _ _)⟩

/-! ## Containers of 2^31 children and more -/

theorem intOfSizeType_of_ge {n : Nat} (hlo : 2 ^ 31 ≤ n) (hhi : n < 2 ^ 32) :
    intOfSizeType n = (n : Int) - 2 ^ 32 := by
  unfold intOfSizeType
  have h1 : n % 2 ^ 32 = n := Nat.mod_eq_of_lt hhi
  rw [h1, if_neg (by omega)]

theorem ofValue_end_oversized (v : Value) (hlo : 2 ^ 31 ≤ v.children.length)
    (hhi : v.children.length < 2 ^ 32) :
    (TreeIterFrame.ofValue v).end_ = (v.children.length : Int) - 2 ^ 32 := by
  cases v with
  | object ms =>
    have h1 : 2 ^ 31 ≤ ms.length := by simpa [Value.children] using hlo
    have h2 : ms.length < 2 ^ 32 := by simpa [Value.children] using hhi
    simp [TreeIterFrame.ofValue, Value.IsArray, Value.IsObject, Value.MemberCount,
      Value.members, Value.children, intOfSizeType_of_ge h1 h2]
  | array es =>
    have h1 : 2 ^ 31 ≤ es.length := by simpa [Value.children] using hlo
    have h2 : es.length < 2 ^ 32 := by simpa [Value.children] using hhi
    simp [TreeIterFrame.ofValue, Value.IsArray, Value.Size, Value.elems, Value.children,
      intOfSizeType_of_ge h1 h2]
  | null => simp [Value.children] at hlo
  | bool b => simp [Value.children] at hlo
  | string s => simp [Value.children] at hlo
  | number n => simp [Value.children] at hlo

theorem ofValue_CurrentValue_oversized (v : Value) (hlo : 2 ^ 31 ≤ v.children.length)
    (hhi : v.children.length < 2 ^ 32) : (TreeIterFrame.ofValue v).CurrentValue = none := by
  have hend := ofValue_end_oversized v hlo hhi
  have hcur : (TreeIterFrame.ofValue v).current_ = 0 := rfl
  unfold TreeIterFrame.CurrentValue
  rw [if_neg]
  rw [hend, hcur]
  have : (v.children.length : Int) < 2 ^ 32 := by exact_mod_cast hhi
  omega

theorem findDuplicateKey_oversized (ms : List (String × Value)) (hlo : 2 ^ 31 ≤ ms.length)
    (hhi : ms.length < 2 ^ 32) : findDuplicateKey (.object ms) = none := by
  have hcount : (intOfSizeType ms.length - 1).toNat = 0 := by
    rw [intOfSizeType_of_ge hlo hhi]
    have : (ms.length : Int) < 2 ^ 32 := by exact_mod_cast hhi
    omega
  simp only [findDuplicateKey, Value.MemberCount, Value.members, hcount]
  rfl

theorem nodeDuplicate_oversized (v : Value) (hlo : 2 ^ 31 ≤ v.children.length)
    (hhi : v.children.length < 2 ^ 32) : nodeDuplicate v = none := by
  cases v with
  | object ms =>
    have h1 : 2 ^ 31 ≤ ms.length := by simpa [Value.children] using hlo
    have h2 : ms.length < 2 ^ 32 := by simpa [Value.children] using hhi
    simp only [nodeDuplicate, Value.IsObject, if_true]
    exact findDuplicateKey_oversized ms h1 h2
  | array es => rfl
  | null => rfl
  | bool b => rfl
  | string s => rfl
  | number n => rfl

/-- A pass whose `value` is an array or object of at least 2^31 children
pushes a frame with a negative `end_` and fails the `UASSERT` of
`CurrentValue`. -/
theorem loopBody_oversized (top : TreeIterFrame) (rest : List TreeIterFrame) (v : Value)
    (hlo : 2 ^ 31 ≤ v.children.length) (hhi : v.children.length < 2 ^ 32) :
    loopBody (top :: rest) v = .done .undefined := by
  have hnd := nodeDuplicate_oversized v hlo hhi
  unfold nodeDuplicate at hnd
  have hc : v.children ≠ [] := by
    intro h
    rw [h] at hlo
    simp at hlo
  have hne : (!v.children.isEmpty) = true := by
    cases hcc : v.children with
    | nil => exact absurd hcc hc
    | cons a l => rfl
  simp only [loopBody, hnd, descend_condition, hne, if_true, selectCurrent,
    ofValue_CurrentValue_oversized v hlo hhi]

theorem walk_oversized (fuel : Nat) (top : TreeIterFrame) (rest : List TreeIterFrame)
    (v : Value) (hlo : 2 ^ 31 ≤ v.children.length) (hhi : v.children.length < 2 ^ 32) :
    walk (fuel + 1) (top :: rest) v = some .undefined := by
  rw [walk_succ, loopBody_oversized top rest v hlo hhi]

/-- On a root that is an array or object of at least 2^31 children the call
ends in undefined behaviour. -/
theorem CheckKeyUniqueness_oversized (v : Value) (hlo : 2 ^ 31 ≤ v.children.length)
    (hhi : v.children.length < 2 ^ 32) : CheckKeyUniqueness v = .undefined := by
  obtain ⟨n, hn⟩ :=
    Nat.exists_eq_succ_of_ne_zero (Nat.pos_iff_ne_zero.mp (Value.nodeCount_pos v))
  have h := CheckKeyUniquenessFuel_enough v v.nodeCount (Nat.le_refl _)
  unfold CheckKeyUniquenessFuel at h
  rw [hn, walk_oversized n _ _ v hlo hhi] at h
  exact (Option.some.inj h).symm

theorem EnsureValid_oversized (v : Value) (hlo : 2 ^ 31 ≤ v.children.length)
    (hhi : v.children.length < 2 ^ 32) : EnsureValid v = .undefined := by
  have hc : v.children ≠ [] := by
    intro h
    rw [h] at hlo
    simp at hlo
  rw [EnsureValid_container v (children_ne_nil_container v hc),
    CheckKeyUniqueness_oversized v hlo hhi]

theorem bigArray_children : bigArray.children.length = 2 ^ 31 :=
  List.length_replicate _ _

theorem NoDuplicateKeys_bigArray : NoDuplicateKeys bigArray := by
  intro v hv
  rw [Value.preorder_eq, List.mem_cons] at hv
  rcases hv with rfl | hv
  · exact List.nodup_nil
  · obtain ⟨c, hc, hvc⟩ := (mem_preorderElems v _).mp hv
    have hcn : c = Value.null := List.eq_of_mem_replicate hc
    rw [hcn] at hvc
    have : v = Value.null := by simpa [Value.preorder] using hvc
    rw [this]
    exact List.nodup_nil

theorem nodeCountElems_replicate_null : ∀ n : Nat,
    Value.nodeCountElems (List.replicate n Value.null) = n := by
  intro n
  induction n with
  | zero => rfl
  | succ n ih =>
    rw [List.replicate_succ, Value.nodeCountElems, ih]
    simp only [Value.nodeCount]
    omega

theorem nodeCount_array_replicate_null (n : Nat) :
    (Value.array (List.replicate n Value.null)).nodeCount = n + 1 := by
  rw [Value.nodeCount_eq]
  show 1 + Value.nodeCountElems (List.replicate n Value.null) = n + 1
  rw [nodeCountElems_replicate_null]
  omega

theorem bigArray_nodeCount : bigArray.nodeCount = 2 ^ 31 + 1 :=
  nodeCount_array_replicate_null (2 ^ 31)

theorem isEmpty_oversized (v : Value) (hlo : 2 ^ 31 ≤ v.children.length) :
    v.children.isEmpty = false := by
  cases hc : v.children with
  | nil =>
    rw [hc] at hlo
    simp at hlo
  | cons a l => rfl

/-- On a root that is an array or object of at least 2^31 children the loop
makes one pass. -/
theorem states_oversized (fuel : Nat) (v : Value) (hlo : 2 ^ 31 ≤ v.children.length)
    (hhi : v.children.length < 2 ^ 32) :
    CheckKeyUniquenessStates (fuel + 1) v = [([TreeIterFrame.empty], v)] := by
  unfold CheckKeyUniquenessStates
  rw [walkStates_succ, loopBody_oversized _ _ v hlo hhi]

/-- On a root that is an array or object of at least 2^31 children the stack
goes through three states: the fake "top" frame, that frame advanced, and the
frame of the root pushed above it. -/
theorem stacks_oversized (v : Value) (hlo : 2 ^ 31 ≤ v.children.length)
    (hhi : v.children.length < 2 ^ 32) :
    CheckKeyUniquenessStacks 1 v =
      [[TreeIterFrame.empty], [TreeIterFrame.empty.Advance],
        [TreeIterFrame.ofValue v, TreeIterFrame.empty.Advance]] := by
  unfold CheckKeyUniquenessStacks
  rw [walkStacks_succ, loopBody_oversized _ _ v hlo hhi, passStacks_cons,
    nodeDuplicate_oversized v hlo hhi]
  simp only [isEmpty_oversized v hlo, Bool.false_eq_true, if_false]
  rfl

theorem isEmpty_bracketed (s : String) : ("[" ++ s ++ "]").isEmpty = false := by
  cases h : ("[" ++ s ++ "]").isEmpty with
  | false => rfl
  | true =>
    have h2 := congrArg String.data ((String.isEmpty_iff _).mp h)
    simp [String.data_append] at h2

theorem bigArrayText_isEmpty : bigArrayText.isEmpty = false :=
  isEmpty_bracketed _

theorem bigArray_bounds :
    2 ^ 31 ≤ bigArray.children.length ∧ bigArray.children.length < 2 ^ 32 := by
  rw [bigArray_children]
  exact ⟨Nat.le_refl _, by norm_num⟩

theorem ofValue_end_of_length (v : Value) (h : v.children.length = 2 ^ 31) :
    (TreeIterFrame.ofValue v).end_ = -(2 ^ 31) := by
  rw [ofValue_end_oversized v (by rw [h]) (by rw [h]; norm_num), h]
  norm_num

/-- C8: the array `bigArray` of 2^31 Null elements has an array at top level
and no duplicate keys, and `EnsureValid` does not return on it: the call ends
with the failed `UASSERT` of `CurrentValue`. -/
theorem oversized_array_not_moved :
    bigArray.IsArray = true ∧ bigArray.children.length = 2 ^ 31 ∧
    NoDuplicateKeys bigArray ∧
    EnsureValid bigArray = .undefined ∧
    EnsureValid bigArray ≠ .returned { root := bigArray, json := .null } := by
  have hund : EnsureValid bigArray = .undefined :=
    EnsureValid_oversized _ bigArray_bounds.1 bigArray_bounds.2
  refine ⟨rfl, bigArray_children, NoDuplicateKeys_bigArray, hund, ?_⟩
  rw [hund]
  intro h
  cases h

/-- C9: the text `bigArrayText` of an array of 2^31 Null elements is not
empty, the parser accepts it with the tree `bigArray`, which has an array at
top level and no duplicate keys, and `FromString` does not succeed on it: the
call ends with the failed `UASSERT` of `CurrentValue`. -/
theorem FromString_oversized_array :
    bigArrayText.isEmpty = false ∧
    (parserOfBigArray.Parse bigArrayText).1.IsError = false ∧
    (parserOfBigArray.Parse bigArrayText).2 = bigArray ∧
    bigArray.IsArray = true ∧ bigArray.children.length = 2 ^ 31 ∧
    NoDuplicateKeys bigArray ∧
    FromString parserOfBigArray bigArrayText = .undefined := by
  have hparse :
      parserOfBigArray.Parse bigArrayText = ({ Code := 0, Offset := 0 }, bigArray) := by
    simp only [parserOfBigArray, if_true]
  have herr : (parserOfBigArray.Parse bigArrayText).1.IsError = false := by
    rw [hparse]
    rfl
  have htree : (parserOfBigArray.Parse bigArrayText).2 = bigArray := by rw [hparse]
  refine ⟨bigArrayText_isEmpty, herr, htree, rfl, bigArray_children,
    NoDuplicateKeys_bigArray, ?_⟩
  rw [FromString_parsed parserOfBigArray bigArrayText bigArrayText_isEmpty herr, htree,
    EnsureValid_oversized _ bigArray_bounds.1 bigArray_bounds.2]

/-- C11: on the array `bigArray` of 2^31 Null elements the call neither
returns nor throws: the first pass pushes a frame with `end_` -2^31 and the
`UASSERT` of `CurrentValue` fails, whatever the fuel. -/
theorem oversized_array_walk_undefined :
    bigArray.children.length = 2 ^ 31 ∧
    CheckKeyUniqueness bigArray = .undefined ∧
    (∀ fuel : Nat, CheckKeyUniquenessFuel (fuel + 1) bigArray = some .undefined) ∧
    CheckKeyUniqueness bigArray ≠ .returned () ∧
    ∀ e : Exception, CheckKeyUniqueness bigArray ≠ .threw e := by
  have hund := CheckKeyUniqueness_oversized bigArray bigArray_bounds.1 bigArray_bounds.2
  refine ⟨bigArray_children, hund,
    fun fuel => walk_oversized fuel _ _ bigArray bigArray_bounds.1 bigArray_bounds.2, ?_, ?_⟩
  · rw [hund]
    intro h
    cases h
  · intro e
    rw [hund]
    intro h
    cases h

/-- C12: the array `bigArray` of 2^31 Null elements has no duplicate keys and
2^31 + 1 nodes, and the loop makes one pass over it, with the root as
`value`: the values at the top of the passes are not the pre-order listing
of the tree. -/
theorem oversized_array_single_pass :
    NoDuplicateKeys bigArray ∧ bigArray.nodeCount = 2 ^ 31 + 1 ∧
    bigArray.preorder.length = 2 ^ 31 + 1 ∧
    (∀ fuel : Nat,
      CheckKeyUniquenessStates (fuel + 1) bigArray = [([TreeIterFrame.empty], bigArray)]) ∧
    ∀ fuel : Nat,
      (CheckKeyUniquenessStates fuel bigArray).map Prod.snd ≠ bigArray.preorder := by
  have hstates := fun fuel =>
    states_oversized fuel bigArray bigArray_bounds.1 bigArray_bounds.2
  refine ⟨NoDuplicateKeys_bigArray, bigArray_nodeCount,
    by rw [Value.preorder_length, bigArray_nodeCount], hstates, ?_⟩
  intro fuel h
  have hl := congrArg List.length h
  rw [List.length_map, Value.preorder_length, bigArray_nodeCount] at hl
  cases fuel with
  | zero =>
    have h0 : (CheckKeyUniquenessStates 0 bigArray).length = 0 := rfl
    omega
  | succ fuel =>
    rw [hstates fuel] at hl
    simp only [List.length_singleton] at hl
    omega

/-- C18: in the walk over the array `bigArray` of 2^31 Null elements the
stack after the `emplace_back` of line 97 holds the frame of the array above
the fake "top" frame, and the `end_` of that frame is -2^31, below 1, and not
the number of elements. -/
theorem oversized_array_frame_end :
    CheckKeyUniquenessStacks 1 bigArray =
      [[TreeIterFrame.empty], [TreeIterFrame.empty.Advance],
        [TreeIterFrame.ofValue bigArray, TreeIterFrame.empty.Advance]] ∧
    (TreeIterFrame.ofValue bigArray).root_ = some bigArray ∧
    bigArray.IsArray = true ∧ bigArray.children.length = 2 ^ 31 ∧
    (TreeIterFrame.ofValue bigArray).end_ = -(2 ^ 31) ∧
    ¬ (1 ≤ (TreeIterFrame.ofValue bigArray).end_) := by
  have hend := ofValue_end_of_length bigArray bigArray_children
  refine ⟨stacks_oversized bigArray bigArray_bounds.1 bigArray_bounds.2, rfl, rfl,
    bigArray_children, hend, ?_⟩
  rw [hend]
  norm_num

end formats.json
